import Mathlib

/-!
Shallow embedding of a book-review graph library (unweighted and weighted
graphs, similarity scores, book recommendations, review-score predictors and
agglomerative clustering) together with proofs about the claims of its
specification.

Modelling conventions:
* Python `dict`s (which preserve insertion order) are modelled as association
  lists; Python `set`s of hashable values are modelled as duplicate-free lists
  (only sizes and membership of these sets are ever observed, so the list
  order is irrelevant where a Python set iteration order would be arbitrary).
* Vertex objects are identified by their `item` key: the graph dictionary maps
  each key to exactly one vertex object, so object identity coincides with key
  equality on every graph built through the public API.
* Numeric values (review weights, similarity scores) are modelled as `ℚ`.
  The spec excludes exact floating-point reproduction from scope.
* Python exceptions are modelled with `Except PyErr`; a raised exception
  aborts the computation with the corresponding error kind.
-/

/-- The Python error kinds that the modelled code can raise. -/
inductive PyErr where
  | valueError
  | keyError
  | zeroDivisionError
  | attributeError
  deriving DecidableEq, Repr

deriving instance DecidableEq for Except

abbrev Key := String

/-! ### Kernel-computable rational arithmetic

The standard `Rat.add`, `Rat.mul` and `Rat.inv` are `@[irreducible]`, so
closed theorems evaluating the model could not be checked by the kernel
through them.  The model therefore uses the following exact equivalents,
built from the reducible `Rat.divInt`; the bridge lemmas `qAdd_eq` etc.
(proved below) identify them with `+`, `*`, `/` on `ℚ`. -/

def qAdd (a b : ℚ) : ℚ := Rat.divInt (a.num * b.den + b.num * a.den) (a.den * b.den)

def qMul (a b : ℚ) : ℚ := Rat.divInt (a.num * b.num) (a.den * b.den)

def qDiv (a b : ℚ) : ℚ := Rat.divInt (a.num * b.den) (a.den * b.num)

def qSum (l : List ℚ) : ℚ := l.foldr qAdd 0

/-- Python's `<` on strings: lexicographic comparison of the code points. -/
def charListLt : List Char → List Char → Bool
  | _, [] => false
  | [], _ :: _ => true
  | a :: as, b :: bs => if a < b then true else if a = b then charListLt as bs else false

def pyStrLt (a b : String) : Bool := charListLt a.data b.data

/-! ## Part 1: the unweighted `Graph` (`part1.py`) -/

/-- `_Vertex`: an unweighted vertex; `nbrs` models the Python set
`self.neighbours` of neighbouring vertex objects by their keys
(duplicate-free by construction). -/
structure Vertex1 where
  item : Key
  kind : String
  nbrs : List Key
  deriving DecidableEq, Repr

/-- `Graph`: `_vertices` is an insertion-ordered dict from item to vertex,
modelled as the list of vertices in insertion order. -/
structure Graph1 where
  verts : List Vertex1
  deriving DecidableEq, Repr

/-- The keys of `self._vertices`, in insertion order. -/
def Graph1.items (g : Graph1) : List Key :=
  g.verts.map (·.item)

/-- `self._vertices[item]` as a partial lookup. -/
def Graph1.lookup (g : Graph1) (item : Key) : Option Vertex1 :=
  g.verts.find? (·.item = item)

/-- `_Vertex.degree`. -/
def Vertex1.degree (v : Vertex1) : ℕ := v.nbrs.length

/-- `set.add` on the neighbour set of a vertex. -/
def Vertex1.addNbr (v : Vertex1) (k : Key) : Vertex1 :=
  if v.nbrs.contains k then v else { v with nbrs := v.nbrs ++ [k] }

/-- `Graph.add_vertex`: no-op when the item is already present. -/
def Graph1.add_vertex (g : Graph1) (item : Key) (kind : String) : Graph1 :=
  if g.items.contains item then g else ⟨g.verts ++ [⟨item, kind, []⟩]⟩

/-- `Graph.add_edge`: raises `ValueError` when either endpoint is absent,
otherwise adds `item2` to `item1`'s neighbour set and vice versa (both
additions land on the same vertex when `item1 = item2`). -/
def Graph1.add_edge (g : Graph1) (item1 item2 : Key) : Except PyErr Graph1 :=
  if g.items.contains item1 && g.items.contains item2 then
    .ok ⟨g.verts.map (fun v =>
      let v := if v.item = item1 then v.addNbr item2 else v
      if v.item = item2 then v.addNbr item1 else v)⟩
  else
    .error .valueError

/-- `Graph.adjacent`: defensively `False` when either item is absent. -/
def Graph1.adjacent (g : Graph1) (item1 item2 : Key) : Bool :=
  if g.items.contains item1 && g.items.contains item2 then
    match g.lookup item1 with
    | some v => v.nbrs.contains item2
    | none => false
  else
    false

/-- `len(a & b)` for the Python sets modelled by the lists `a` and `b`. -/
def interLen (a b : List Key) : ℕ :=
  (a.filter (fun k => b.contains k)).length

/-- `len(a | b)` for the Python sets modelled by the lists `a` and `b`. -/
def unionLen (a b : List Key) : ℕ :=
  a.length + (b.filter (fun k => !a.contains k)).length

/-- `_Vertex.similarity_score`: Jaccard index of the neighbour sets,
`0.0` when either degree is `0`. -/
def Vertex1.similarity_score (v other : Vertex1) : ℚ :=
  if v.degree = 0 ∨ other.degree = 0 then 0
  else mkRat (interLen v.nbrs other.nbrs) (unionLen v.nbrs other.nbrs)

/-- `Graph.get_similarity_score`: `ValueError` when either item is absent. -/
def Graph1.get_similarity_score (g : Graph1) (item1 item2 : Key) :
    Except PyErr ℚ :=
  match g.lookup item1, g.lookup item2 with
  | some v1, some v2 => .ok (v1.similarity_score v2)
  | _, _ => .error .valueError

/-! ### The nested-loop ranking sort of `recommend_books`

The source sorts the candidate list with

    for i in range(0, n):
        for j in range(0, n):
            if i > j and better(a[i], a[j]): swap a[i], a[j]

where `better x y` means: `x` scores strictly higher than `y`, or scores are
equal and `x.item > y.item`.  `pyStep`, `pyInner` and `pySortLoop` are the
direct index-level rendering of this loop nest. -/

/-- One body execution of the inner loop: swap positions `i` and `j`
when `i > j` and `better a[i] a[j]`. -/
def pyStep (better : α → α → Bool) (l : List α) (i j : ℕ) : List α :=
  if j < i then
    match l[i]?, l[j]? with
    | some x, some y => if better x y then (l.set i y).set j x else l
    | _, _ => l
  else l

/-- The inner `for j in range(0, len(l))` loop, with outer index `i`. -/
def pyInner (better : α → α → Bool) (i : ℕ) (l : List α) : List α :=
  (List.range l.length).foldl (fun acc j => pyStep better acc i j) l

/-- The outer `for i in range(0, len(l))` loop. -/
def pySortLoop (better : α → α → Bool) (l : List α) : List α :=
  (List.range l.length).foldl (fun acc i => pyInner better i acc) l

/-- The comparison used by the ranking sort, abstracted over the similarity
function and the item-key projection: strictly higher similarity wins; on
equal similarity the larger item key wins (`>` on Python strings). -/
def scoreBetter (score : α → ℚ) (key : α → Key) (x y : α) : Bool :=
  decide (score y < score x) ||
    (decide (score x = score y) && pyStrLt (key y) (key x))

/-- The ranking comparison of `Graph.recommend_books`, relative to the query
vertex `q`. -/
def rankBetter1 (q : Vertex1) : Vertex1 → Vertex1 → Bool :=
  scoreBetter (·.similarity_score q) (·.item)

/-- `Graph.recommend_books`.  The source looks `self._vertices[book]` up
lazily inside the loops; the model hoists that dictionary access (a missing
`book` raises `KeyError`).  After sorting, candidates with similarity `0` are
dropped; then, only when at least `limit` candidates remain, the list is cut
with the slice `[:(limit + 1)]` and converted to item keys (`Sum.inr`).  When
fewer than `limit` candidates remain, the unconverted vertex objects are
returned (`Sum.inl`), exactly as in the source. -/
def Graph1.recommend_books (g : Graph1) (book : Key) (limit : ℤ) :
    Except PyErr (List Vertex1 ⊕ List Key) :=
  match g.lookup book with
  | none => .error .keyError
  | some q =>
    let pos := g.verts.filter (·.kind = "book")
    let sorted := pySortLoop (rankBetter1 q) pos
    let kept := sorted.filter (fun x => x.similarity_score q ≠ 0)
    if limit ≤ (kept.length : ℤ) then
      .ok (.inr ((kept.take (limit + 1).toNat).map (·.item)))
    else
      .ok (.inl kept)

/-! ### Operation sequences on `Graph` -/

/-- One public mutating call on a `Graph`. -/
inductive Op1 where
  | addV (item : Key) (kind : String)
  | addE (item1 item2 : Key)
  deriving DecidableEq, Repr

/-- Run a sequence of calls, aborting at the first raised error. -/
def runOps1 (g : Graph1) : List Op1 → Except PyErr Graph1
  | [] => .ok g
  | .addV item kind :: ops => runOps1 (g.add_vertex item kind) ops
  | .addE i1 i2 :: ops => do runOps1 (← g.add_edge i1 i2) ops

/-! ## Part 2: the `WeightedGraph` (`recommendations.py`) -/

/-- `_WeightedVertex`: `nbrs` models the Python dict
`self.neighbours : dict[vertex, weight]`, keyed by the neighbour's item
(insertion-ordered association list, keys duplicate-free by construction). -/
structure WVertex where
  item : Key
  kind : String
  nbrs : List (Key × ℚ)
  deriving DecidableEq, Repr

/-- `WeightedGraph`. -/
structure WGraph where
  verts : List WVertex
  deriving DecidableEq, Repr

/-- The keys of the neighbour dict of a weighted vertex. -/
def WVertex.nbrKeys (v : WVertex) : List Key := v.nbrs.map Prod.fst

/-- `_WeightedVertex.degree`. -/
def WVertex.degree (v : WVertex) : ℕ := v.nbrs.length

/-- `d[k] = w` on an insertion-ordered dict: overwrite in place when the key
is present, append otherwise. -/
def setWeight (al : List (Key × ℚ)) (k : Key) (w : ℚ) : List (Key × ℚ) :=
  if al.any (·.1 = k) then al.map (fun p => if p.1 = k then (k, w) else p)
  else al ++ [(k, w)]

def WGraph.items (g : WGraph) : List Key :=
  g.verts.map (·.item)

def WGraph.lookup (g : WGraph) (item : Key) : Option WVertex :=
  g.verts.find? (·.item = item)

/-- `WeightedGraph.add_vertex`. -/
def WGraph.add_vertex (g : WGraph) (item : Key) (kind : String) : WGraph :=
  if g.items.contains item then g else ⟨g.verts ++ [⟨item, kind, []⟩]⟩

/-- `WeightedGraph.add_edge`: `ValueError` when either endpoint is absent,
otherwise stores the weight in both endpoint dicts (twice on the same vertex
when `item1 = item2`). -/
def WGraph.add_edge (g : WGraph) (item1 item2 : Key) (weight : ℚ) :
    Except PyErr WGraph :=
  if g.items.contains item1 && g.items.contains item2 then
    .ok ⟨g.verts.map (fun v =>
      let v := if v.item = item1 then { v with nbrs := setWeight v.nbrs item2 weight } else v
      if v.item = item2 then { v with nbrs := setWeight v.nbrs item1 weight } else v)⟩
  else
    .error .valueError

/-- `Graph.adjacent`, as inherited by `WeightedGraph` (iterating a dict
yields its keys). -/
def WGraph.adjacent (g : WGraph) (item1 item2 : Key) : Bool :=
  if g.items.contains item1 && g.items.contains item2 then
    match g.lookup item1 with
    | some v => v.nbrKeys.contains item2
    | none => false
  else
    false

/-- `WeightedGraph.get_weight`: both `self._vertices[...]` accesses raise
`KeyError` on a missing item; then `v1.neighbours.get(v2, 0)`. -/
def WGraph.get_weight (g : WGraph) (item1 item2 : Key) : Except PyErr ℚ :=
  match g.lookup item1, g.lookup item2 with
  | some v1, some _ => .ok ((v1.nbrs.lookup item2).getD 0)
  | _, _ => .error .keyError

/-- `Graph.get_neighbours`, as inherited by `WeightedGraph` (the returned
Python set of neighbour items is modelled by the key list). -/
def WGraph.get_neighbours (g : WGraph) (item : Key) : Except PyErr (List Key) :=
  match g.lookup item with
  | some v => .ok v.nbrKeys
  | none => .error .valueError

/-- `Graph.get_all_vertices`, as inherited by `WeightedGraph` (a Python set
of keys, modelled in insertion order). -/
def WGraph.get_all_vertices (g : WGraph) (kind : String := "") : List Key :=
  if kind ≠ "" then (g.verts.filter (·.kind = kind)).map (·.item)
  else g.items

/-- `WeightedGraph.average_weight`: `ValueError` when the item is absent;
the Python division `sum(...) / len(...)` raises `ZeroDivisionError` on a
vertex with no neighbours, which the model makes explicit. -/
def WGraph.average_weight (g : WGraph) (item : Key) : Except PyErr ℚ :=
  match g.lookup item with
  | some v =>
    if v.nbrs.length = 0 then .error .zeroDivisionError
    else .ok (qDiv (qSum (v.nbrs.map Prod.snd)) (v.nbrs.length : ℚ))
  | none => .error .valueError

/-- The weight `z.neighbours[self]` stored on vertex `z`'s side for key `k`
(`none` when absent; the source would raise `KeyError` there, which never
happens on the mirrored-edge graphs the theorems quantify over). -/
def WGraph.nbrWeightOf (g : WGraph) (z k : Key) : Option ℚ :=
  match g.lookup z with
  | some zv => zv.nbrs.lookup k
  | none => none

/-- `_WeightedVertex.similarity_score_unweighted`. -/
def WVertex.similarity_score_unweighted (v other : WVertex) : ℚ :=
  if v.degree = 0 ∨ other.degree = 0 then 0
  else mkRat (interLen v.nbrKeys other.nbrKeys) (unionLen v.nbrKeys other.nbrKeys)

/-- `_WeightedVertex.similarity_score_strict`: among the common neighbour
keys, count those whose stored weight towards `v` equals their stored weight
towards `other`, and divide by the size of the key-set union. -/
def simStrict (g : WGraph) (v other : WVertex) : ℚ :=
  if v.degree = 0 ∨ other.degree = 0 then 0
  else
    mkRat (v.nbrKeys.filter (fun z => other.nbrKeys.contains z &&
        decide (g.nbrWeightOf z v.item = g.nbrWeightOf z other.item))).length
      (unionLen v.nbrKeys other.nbrKeys)

/-- `WeightedGraph.get_similarity_score`: `ValueError` when either item is
absent; any `score_type` other than `"unweighted"` selects the strict score. -/
def WGraph.get_similarity_score (g : WGraph) (item1 item2 : Key)
    (score_type : String := "unweighted") : Except PyErr ℚ :=
  if !(g.items.contains item1) || !(g.items.contains item2) then
    .error .valueError
  else
    match g.lookup item1, g.lookup item2 with
    | some v1, some v2 =>
      if score_type = "unweighted" then .ok (v1.similarity_score_unweighted v2)
      else .ok (simStrict g v1 v2)
    | _, _ => .error .valueError

/-- The similarity function `recommend_books` ranks with: the source's two
branches are textually identical apart from which score method they call, so
the model selects the score function once. -/
def recScoreW (g : WGraph) (q : WVertex) (score_type : String) (x : WVertex) : ℚ :=
  if score_type = "unweighted" then x.similarity_score_unweighted q
  else simStrict g x q

/-- `WeightedGraph.recommend_books`: same pipeline as the unweighted variant
(sort by score descending with the larger item key winning ties, drop zero
scores, slice `[:(limit + 1)]` and convert to titles only when at least
`limit` candidates remain). -/
def WGraph.recommend_books (g : WGraph) (book : Key) (limit : ℤ)
    (score_type : String := "unweighted") : Except PyErr (List WVertex ⊕ List Key) :=
  match g.lookup book with
  | none => .error .keyError
  | some q =>
    let pos := g.verts.filter (·.kind = "book")
    let sorted := pySortLoop (scoreBetter (recScoreW g q score_type) (·.item)) pos
    let kept := sorted.filter (fun x => recScoreW g q score_type x ≠ 0)
    if limit ≤ (kept.length : ℤ) then
      .ok (.inr ((kept.take (limit + 1).toNat).map (·.item)))
    else
      .ok (.inl kept)

/-- One public mutating call on a `WeightedGraph`. -/
inductive OpW where
  | addV (item : Key) (kind : String)
  | addE (item1 item2 : Key) (weight : ℚ)
  deriving DecidableEq, Repr

/-- Run a sequence of calls, aborting at the first raised error. -/
def runOpsW (g : WGraph) : List OpW → Except PyErr WGraph
  | [] => .ok g
  | .addV item kind :: ops => runOpsW (g.add_vertex item kind) ops
  | .addE i1 i2 w :: ops => do runOpsW (← g.add_edge i1 i2 w) ops

/-! ## Predictors (`predictions.py`) -/

/-- Python 3 `round` on an exact rational: round half to even.  With
`f = ⌊q⌋` and `r = q.num - f * q.den` (so the fractional part of `q` is
`r / q.den`), round down when `r / den < 1/2`, up when `> 1/2`, and to the
even neighbour on a tie. -/
def pyRound (q : ℚ) : ℤ :=
  let f := Int.ediv q.num q.den
  let r := q.num - f * q.den
  if 2 * r < (q.den : ℤ) then f
  else if (q.den : ℤ) < 2 * r then f + 1
  else if 2 ∣ f then f else f + 1

/-- `FiveStarPredictor.predict_review_score`. -/
def predictFiveStar (g : WGraph) (user book : Key) : Except PyErr ℚ :=
  if g.adjacent user book then g.get_weight user book
  else .ok 5

/-- `BookAverageScorePredictor.predict_review_score`. -/
def predictBookAverage (g : WGraph) (user book : Key) : Except PyErr ℚ :=
  if g.adjacent user book then g.get_weight user book
  else do
    let avg ← g.average_weight book
    pure (pyRound avg : ℚ)

/-- `SimilarUserPredictor.predict_review_score`. -/
def predictSimilarUser (g : WGraph) (score_type : String) (user book : Key) :
    Except PyErr ℚ :=
  if g.adjacent user book then g.get_weight user book
  else do
    let prev ← g.get_neighbours book
    let numTerms ← prev.mapM (fun x => do
      let w ← g.get_weight x book
      let s ← g.get_similarity_score x user score_type
      pure (qMul w s))
    let denTerms ← prev.mapM (fun x => g.get_similarity_score x user score_type)
    let return_val : ℤ :=
      if 0 < qSum denTerms then pyRound (qDiv (qSum numTerms) (qSum denTerms)) else 0
    if return_val = 0 then do
      let avg ← g.average_weight book
      pure (pyRound avg : ℚ)
    else
      pure (return_val : ℚ)

/-! ## Clustering (`part3.py`)

Clusters are Python sets of book keys, modelled as duplicate-free key lists;
`random.choice` is modelled by an explicit choice oracle `pick` supplying an
index at each merge step (reduced modulo the current cluster count, so every
oracle denotes a choice the library could actually make). -/

/-- `cross_cluster_weight`: average `get_weight` over all pairs drawn from
the two clusters (missing edges contribute `0`). -/
def cross_cluster_weight (g : WGraph) (c1 c2 : List Key) : Except PyErr ℚ := do
  let terms ← (c1.flatMap (fun x => c2.map (fun y => (x, y)))).mapM
    (fun p => g.get_weight p.1 p.2)
  pure (qDiv (qSum terms) ((c1.length * c2.length : ℕ) : ℚ))

/-- The greedy pair scan: `for i1 in range(len)`, `for i2 in range(i1+1, len)`,
keeping the pair with the strictly best score seen so far, starting from
`best = -1` and no pair. -/
def greedyScan (g : WGraph) (cs : List (List Key)) :
    Except PyErr (ℚ × Option (List Key) × Option (List Key)) :=
  (List.range cs.length).foldlM (fun acc i1 =>
    (List.range' (i1 + 1) (cs.length - (i1 + 1))).foldlM (fun acc i2 => do
      let c1 := cs.getD i1 []
      let c2 := cs.getD i2 []
      let score ← cross_cluster_weight g c1 c2
      pure (if acc.1 < score then (score, some c1, some c2) else acc)) acc)
    (-1, none, none)

/-- `best_c2.update(best_c1)` followed by `clusters.remove(best_c1)`: the one
list entry holding the set object `c2` becomes the union, then the first
entry equal to `c1` is removed. -/
def mergeInto (cs : List (List Key)) (c1 c2 : List Key) : List (List Key) :=
  (cs.map (fun c => if c = c2 then c2 ++ c1.filter (fun x => !c2.contains x) else c)).erase c1

/-- One merge step of `find_clusters_greedy`; merging into a `None` best pair
is the Python `AttributeError` on `None.update`. -/
def greedyStep (g : WGraph) (cs : List (List Key)) :
    Except PyErr (List (List Key)) := do
  let r ← greedyScan g cs
  match r.2.1, r.2.2 with
  | some c1, some c2 => pure (mergeInto cs c1 c2)
  | _, _ => .error .attributeError

/-- `clusters = [{book} for book in graph.get_all_vertices()]`: the initial
singleton partition, one cluster per vertex. -/
def clustersInit (g : WGraph) : List (List Key) :=
  (g.get_all_vertices "").map (fun b => [b])

/-- `find_clusters_greedy`: start from singleton clusters and run
`len(clusters) - num_clusters` merge steps (none when that difference is
negative, as `range` is empty then). -/
def find_clusters_greedy (g : WGraph) (num_clusters : ℤ) :
    Except PyErr (List (List Key)) :=
  (List.range (((clustersInit g).length : ℤ) - num_clusters).toNat).foldlM
    (fun cs _ => greedyStep g cs) (clustersInit g)

/-- The scan of `find_clusters_random` over merge candidates for the chosen
cluster `c1` (`c1 is not c2` is key-set inequality here: distinct cluster
objects hold distinct, disjoint key sets). -/
def randomScan (g : WGraph) (cs : List (List Key)) (c1 : List Key) :
    Except PyErr (ℚ × Option (List Key)) :=
  cs.foldlM (fun acc c2 =>
    if c2 ≠ c1 then do
      let score ← cross_cluster_weight g c1 c2
      pure (if acc.1 < score then (score, some c2) else acc)
    else pure acc) (-1, none)

/-- One merge step of `find_clusters_random`: `random.choice(clusters)` is the
entry at the oracle-chosen index, then `c1` is merged into the best-scoring
other cluster. -/
def randomStep (g : WGraph) (pick : ℕ) (cs : List (List Key)) :
    Except PyErr (List (List Key)) := do
  let c1 := cs.getD (pick % cs.length) []
  let r ← randomScan g cs c1
  match r.2 with
  | some c2 => pure (mergeInto cs c1 c2)
  | none => .error .attributeError

/-- `find_clusters_random`, parameterised by the choice oracle `pick`. -/
def find_clusters_random (g : WGraph) (pick : ℕ → ℕ) (num_clusters : ℤ) :
    Except PyErr (List (List Key)) :=
  (List.range (((clustersInit g).length : ℤ) - num_clusters).toNat).foldlM
    (fun cs t => randomStep g (pick t) cs) (clustersInit g)

/-- The partition reached after the first `t` merge steps of
`find_clusters_greedy`. -/
def greedyIter (g : WGraph) (t : ℕ) : Except PyErr (List (List Key)) :=
  (List.range t).foldlM (fun cs _ => greedyStep g cs) (clustersInit g)

/-- The partition reached after the first `t` merge steps of
`find_clusters_random`. -/
def randomIter (g : WGraph) (pick : ℕ → ℕ) (t : ℕ) :
    Except PyErr (List (List Key)) :=
  (List.range t).foldlM (fun cs t' => randomStep g (pick t') cs) (clustersInit g)

/-! ## Well-formedness invariants

Graphs built through the public API have duplicate-free vertex keys (they are
dict keys) and duplicate-free neighbour collections (Python sets / dict
keys), and weighted edges are stored mirrored with equal weights. -/

/-- Well-formedness of an unweighted graph state. -/
def Graph1.WF (g : Graph1) : Prop :=
  (g.verts.map (·.item)).Nodup ∧ ∀ v ∈ g.verts, v.nbrs.Nodup

/-- Well-formedness of a weighted graph state. -/
def WGraph.WF (g : WGraph) : Prop :=
  (g.verts.map (·.item)).Nodup ∧ ∀ v ∈ g.verts, (v.nbrs.map Prod.fst).Nodup

/-- Mirrored-edge invariant: every weight stored on one endpoint's side is
also stored, with the same value, on the other endpoint's side. -/
def WGraph.Mirrored (g : WGraph) : Prop :=
  ∀ v ∈ g.verts, ∀ p ∈ v.nbrs, g.nbrWeightOf p.1 v.item = some p.2

/-! ## Concrete example graphs -/

/-- Books `a`, `b`, `q` and user `u`, with `u` reviewing all three books:
every book (the query `q` included) then has unweighted similarity `1` to
`q`. -/
def exOps1 : List Op1 :=
  [.addV "a" "book", .addV "b" "book", .addV "q" "book", .addV "u" "user",
   .addE "u" "a", .addE "u" "b", .addE "u" "q"]

/-- The example graph built by running `exOps1` from an empty `Graph`. -/
def gEx1 : Graph1 :=
  match runOps1 ⟨[]⟩ exOps1 with
  | .ok g => g
  | .error _ => ⟨[]⟩

/-- The weighted counterpart of `gEx1` (all reviews scored 3). -/
def gExW : WGraph :=
  match runOpsW ⟨[]⟩
    [.addV "a" "book", .addV "b" "book", .addV "q" "book", .addV "u" "user",
     .addE "u" "a" 3, .addE "u" "b" 3, .addE "u" "q" 3] with
  | .ok g => g
  | .error _ => ⟨[]⟩

/-- A weighted graph with one user and one book and no reviews at all. -/
def gNoRev : WGraph :=
  match runOpsW ⟨[]⟩ [.addV "u" "user", .addV "b" "book"] with
  | .ok g => g
  | .error _ => ⟨[]⟩

/-- A book-only weighted graph with three books and one edge, for the
clustering claims. -/
def gBooks : WGraph :=
  match runOpsW ⟨[]⟩
    [.addV "a" "book", .addV "b" "book", .addV "c" "book", .addE "a" "b" 1] with
  | .ok g => g
  | .error _ => ⟨[]⟩

/-- The invariant maintained by the clustering loops: every cluster is a
non-empty set of present vertex keys, and distinct clusters are disjoint. -/
def ClustersInv (g : WGraph) (cs : List (List Key)) : Prop :=
  (∀ c ∈ cs, c ≠ [] ∧ ∀ x ∈ c, x ∈ g.items) ∧
  cs.Pairwise (fun c d => ∀ x ∈ c, x ∉ d)

/-- The greedy pair scan has locked onto a pair of distinct clusters. -/
def ScanState (cs : List (List Key))
    (acc : ℚ × Option (List Key) × Option (List Key)) : Prop :=
  ∃ c1 ∈ cs, ∃ c2 ∈ cs, c1 ≠ c2 ∧
    acc.2.1 = some c1 ∧ acc.2.2 = some c2 ∧ -1 < acc.1

/-- The random-strategy scan has locked onto a merge partner for `c1`. -/
def ScanStateR (cs : List (List Key)) (c1 : List Key)
    (acc : ℚ × Option (List Key)) : Prop :=
  ∃ c2 ∈ cs, c2 ≠ c1 ∧ acc.2 = some c2 ∧ -1 < acc.1

/-! ## Auxiliary notions used by the statements and proofs -/

/-- An `add_edge` call whose two endpoints differ (no attempted self-loop). -/
def Op1.selfFree : Op1 → Prop
  | .addV _ _ => True
  | .addE i1 i2 => i1 ≠ i2

def OpW.selfFree : OpW → Prop
  | .addV _ _ => True
  | .addE i1 i2 _ => i1 ≠ i2

instance : DecidablePred Op1.selfFree := fun op => by
  cases op <;> simp [Op1.selfFree] <;> infer_instance

instance : DecidablePred OpW.selfFree := fun op => by
  cases op <;> simp [OpW.selfFree] <;> infer_instance

/-- No vertex of the unweighted graph holds itself as a neighbour. -/
def NoSelfLoop1 (g : Graph1) : Prop :=
  ∀ v ∈ g.verts, v.item ∉ v.nbrs

/-- No vertex of the weighted graph holds itself as a neighbour. -/
def NoSelfLoopW (g : WGraph) : Prop :=
  ∀ v ∈ g.verts, v.item ∉ v.nbrKeys

instance (g : Graph1) : Decidable (NoSelfLoop1 g) := by
  unfold NoSelfLoop1; infer_instance

instance (g : WGraph) : Decidable (NoSelfLoopW g) := by
  unfold NoSelfLoopW; infer_instance

instance (g : Graph1) : Decidable g.WF := by
  unfold Graph1.WF; infer_instance

instance (g : WGraph) : Decidable g.WF := by
  unfold WGraph.WF; infer_instance

instance (g : WGraph) : Decidable g.Mirrored := by
  unfold WGraph.Mirrored; infer_instance

/-- The item keys of a `recommend_books` result, whether the source returned
titles (`Sum.inr`) or unconverted vertex objects (`Sum.inl`). -/
def recKeys1 : List Vertex1 ⊕ List Key → List Key
  | .inl vs => vs.map (·.item)
  | .inr ks => ks

def recKeysW : List WVertex ⊕ List Key → List Key
  | .inl vs => vs.map (·.item)
  | .inr ks => ks

/-- The part-1 similarity of the vertex stored under key `k` to the query
vertex `q` (`0` for an absent key); used to state ranking properties of
`recommend_books` at the level of returned item keys. -/
def keyScore1 (g : Graph1) (q : Vertex1) (k : Key) : ℚ :=
  match g.lookup k with
  | some v => v.similarity_score q
  | none => 0

/-- The weighted-graph analogue of `keyScore1`, for either score type. -/
def keyScoreW (g : WGraph) (q : WVertex) (score_type : String) (k : Key) : ℚ :=
  match g.lookup k with
  | some v => recScoreW g q score_type v
  | none => 0

instance (o1 o2 : Option ℚ) : Decidable (∃ w, o1 = some w ∧ o2 = some w) :=
  decidable_of_iff (o1.isSome ∧ o1 = o2) (by
    constructor
    · rintro ⟨h1, h2⟩
      obtain ⟨w, hw⟩ := Option.isSome_iff_exists.mp h1
      exact ⟨w, hw, h2 ▸ hw⟩
    · rintro ⟨w, hw1, hw2⟩
      simp [hw1, hw2])

/-- Every weight stored anywhere in the graph is nonnegative (review scores
and similarity scores are; the data model stores no negative weights). -/
def WGraph.NonnegWeights (g : WGraph) : Prop :=
  ∀ v ∈ g.verts, ∀ p ∈ v.nbrs, (0 : ℚ) ≤ p.2

instance (g : WGraph) : Decidable g.NonnegWeights := by
  unfold WGraph.NonnegWeights; infer_instance

/-! ### The inner ranking loop as structural recursion

`innerAux better pre x` describes the net effect of one inner-loop pass of
the nested-loop sort: scanning the already-sorted prefix `pre` left to right
with the element `x` sitting at position `i`, each comparison either swaps
(the carried element changes) or leaves the position alone.  It returns the
rewritten prefix together with the element left at position `i`. -/
def innerAux (better : α → α → Bool) : List α → α → List α × α
  | [], x => ([], x)
  | p :: ps, x =>
    if better x p then
      let r := innerAux better ps p
      (x :: r.1, r.2)
    else
      let r := innerAux better ps x
      (p :: r.1, r.2)

/-- The outer loop as structural recursion: repeatedly run the inner pass,
growing the sorted prefix by one element each time. -/
def outAux (better : α → α → Bool) : List α → List α → List α
  | acc, [] => acc
  | acc, x :: rest =>
    let r := innerAux better acc x
    outAux better (r.1 ++ [r.2]) rest

/-! ## Helper lemmas -/

theorem List.contains_true_iff {l : List Key} {k : Key} :
    l.contains k = true ↔ k ∈ l := by
  simp

theorem lookup1_some {g : Graph1} {k : Key} {v : Vertex1}
    (h : g.lookup k = some v) : v ∈ g.verts ∧ v.item = k := by
  refine ⟨List.mem_of_find?_eq_some h, ?_⟩
  simpa using List.find?_some h

theorem lookup1_of_mem {g : Graph1} {k : Key} (h : k ∈ g.items) :
    ∃ v, g.lookup k = some v := by
  obtain ⟨v, hv, rfl⟩ := List.mem_map.mp h
  have hs : (g.verts.find? (fun w => w.item = v.item)).isSome := by
    rw [List.find?_isSome]
    exact ⟨v, hv, by simp⟩
  exact Option.isSome_iff_exists.mp hs

theorem mem_items1_of_lookup {g : Graph1} {k : Key} {v : Vertex1}
    (h : g.lookup k = some v) : k ∈ g.items := by
  obtain ⟨hv, hk⟩ := lookup1_some h
  exact hk ▸ List.mem_map_of_mem _ hv

theorem lookupW_some {g : WGraph} {k : Key} {v : WVertex}
    (h : g.lookup k = some v) : v ∈ g.verts ∧ v.item = k := by
  refine ⟨List.mem_of_find?_eq_some h, ?_⟩
  simpa using List.find?_some h

theorem lookupW_of_mem {g : WGraph} {k : Key} (h : k ∈ g.items) :
    ∃ v, g.lookup k = some v := by
  obtain ⟨v, hv, rfl⟩ := List.mem_map.mp h
  have hs : (g.verts.find? (fun w => w.item = v.item)).isSome := by
    rw [List.find?_isSome]
    exact ⟨v, hv, by simp⟩
  exact Option.isSome_iff_exists.mp hs

theorem mem_itemsW_of_lookup {g : WGraph} {k : Key} {v : WVertex}
    (h : g.lookup k = some v) : k ∈ g.items := by
  obtain ⟨hv, hk⟩ := lookupW_some h
  exact hk ▸ List.mem_map_of_mem _ hv

/-! ## Claim C10 -/

/-- C10: when either item is absent from the graph,
`FiveStarPredictor.predict_review_score` returns `5` without raising,
because `adjacent` is defensively `False` for absent items and the
non-adjacent branch is the constant `5`. -/
theorem c10_five_star_defensive (g : WGraph) (user book : Key)
    (h : user ∉ g.items ∨ book ∉ g.items) :
    predictFiveStar g user book = .ok 5 := by
  have hadj : g.adjacent user book = false := by
    unfold WGraph.adjacent
    rcases h with h | h
    · simp only [Bool.and_eq_true, List.contains_true_iff]
      rw [if_neg]
      rintro ⟨hu, -⟩
      exact h hu
    · simp only [Bool.and_eq_true, List.contains_true_iff]
      rw [if_neg]
      rintro ⟨-, hb⟩
      exact h hb
  unfold predictFiveStar
  simp [hadj]

/-- Witness for C10 at a concrete input: `"zz"` is not a vertex of
`gNoRev`, and the prediction is `5`. -/
theorem c10_witness :
    ("zz" ∉ gNoRev.items ∨ "b" ∉ gNoRev.items) ∧
      predictFiveStar gNoRev "zz" "b" = .ok 5 :=
  ⟨Or.inl (by decide), c10_five_star_defensive gNoRev "zz" "b" (Or.inl (by decide))⟩

/-! ## Claim C7 -/

/-- C7: when an edge between `user` and `book` is already stored, all three
concrete predictors return exactly the stored weight. -/
theorem c7_existing_edge_returns_weight (g : WGraph) (score_type : String)
    (user book : Key) (vu : WVertex) (w : ℚ)
    (hu : g.lookup user = some vu) (hb : book ∈ g.items)
    (hw : vu.nbrs.lookup book = some w) :
    predictFiveStar g user book = .ok w ∧
    predictBookAverage g user book = .ok w ∧
    predictSimilarUser g score_type user book = .ok w := by
  have humem : user ∈ g.items := mem_itemsW_of_lookup hu
  have hbk : book ∈ vu.nbrKeys := by
    have hs : (vu.nbrs.lookup book).isSome := by rw [hw]; rfl
    rw [List.lookup_isSome_iff] at hs
    obtain ⟨p, hp, hbeq⟩ := hs
    have hb1 : book = p.1 := by simpa using hbeq
    unfold WVertex.nbrKeys
    rw [hb1]
    exact List.mem_map_of_mem _ hp
  have hadj : g.adjacent user book = true := by
    unfold WGraph.adjacent
    rw [hu]
    simp [humem, hb, hbk]
  obtain ⟨vb, hvb⟩ := lookupW_of_mem hb
  have hgw : g.get_weight user book = .ok w := by
    unfold WGraph.get_weight
    rw [hu, hvb]
    simp [hw]
  refine ⟨?_, ?_, ?_⟩
  · unfold predictFiveStar
    simp [hadj, hgw]
  · unfold predictBookAverage
    simp [hadj, hgw]
  · unfold predictSimilarUser
    simp [hadj, hgw]

/-- Witness for C7: in `gExW` the user `u` has reviewed book `b` with
weight `3`, and all three predictors return `3`. -/
theorem c7_witness :
    predictFiveStar gExW "u" "b" = .ok 3 ∧
    predictBookAverage gExW "u" "b" = .ok 3 ∧
    predictSimilarUser gExW "unweighted" "u" "b" = .ok 3 :=
  c7_existing_edge_returns_weight gExW "unweighted" "u" "b"
    ⟨"u", "user", [("a", 3), ("b", 3), ("q", 3)]⟩ 3
    (by decide) (by decide) (by decide)

/-! ## Claim C4 -/

/-- C4 counterexample: on a graph where `u` and `b` are present, not
adjacent, and `b` has no reviewers, `BookAverageScorePredictor` fails with
`ZeroDivisionError`, not with `ValueError` as the claim asserts. -/
theorem c4_counterexample :
    predictBookAverage gNoRev "u" "b" = .error .zeroDivisionError ∧
    predictBookAverage gNoRev "u" "b" ≠ .error .valueError := by decide

/-- C4 (amended): under the claim's hypotheses the call fails, but the error
kind realised is `ZeroDivisionError` (the Python division by zero in
`average_weight`), not `ValueError`. -/
theorem c4_no_reviewers_zero_division (g : WGraph) (user book : Key)
    (vb : WVertex) (_hu : user ∈ g.items) (hb : g.lookup book = some vb)
    (hnb : vb.nbrs = []) (hadj : g.adjacent user book = false) :
    predictBookAverage g user book = .error .zeroDivisionError := by
  unfold predictBookAverage
  rw [hadj]
  simp [WGraph.average_weight, hb, hnb]

/-- Witness for the amended C4 at the concrete graph `gNoRev`. -/
theorem c4_witness :
    predictBookAverage gNoRev "u" "b" = .error .zeroDivisionError :=
  c4_no_reviewers_zero_division gNoRev "u" "b" ⟨"b", "book", []⟩
    (by decide) (by decide) (by decide) (by decide)

/-! ## Claims C1 and C2 (behaviour of `recommend_books` at failing inputs) -/

/-- C1: at `limit = 1` with three non-zero-scoring candidates, both
`recommend_books` variants return `limit + 1 = 2` item keys — more than
`limit` — because the source slices with `[:(limit + 1)]`. -/
theorem c1_limit_plus_one_bug :
    gEx1.recommend_books "q" 1 = .ok (.inr ["q", "b"]) ∧
    gExW.recommend_books "q" 1 "unweighted" = .ok (.inr ["q", "b"]) ∧
    gExW.recommend_books "q" 1 "strict" = .ok (.inr ["q", "b"]) ∧
    ¬ ((recKeys1 (.inr ["q", "b"])).length ≤ 1) := by decide

/-- C2: the query book `q` (which scores `1` against itself) is returned by
both `recommend_books` variants — the source never filters it out. -/
theorem c2_query_book_in_output :
    gEx1.recommend_books "q" 3 = .ok (.inr ["q", "b", "a"]) ∧
    gExW.recommend_books "q" 3 "unweighted" = .ok (.inr ["q", "b", "a"]) ∧
    gExW.recommend_books "q" 3 "strict" = .ok (.inr ["q", "b", "a"]) ∧
    "q" ∈ recKeys1 (.inr ["q", "b", "a"]) := by decide

/-! ## Claim C3 -/

/-- C3 counterexample: `add_edge(x, x)` on a present item `x` creates a
self-loop in both graph variants, refuting the claim for sequences that
contain such a call. -/
theorem c3_counterexample :
    runOps1 ⟨[]⟩ [.addV "a" "user", .addE "a" "a"] =
      .ok ⟨[⟨"a", "user", ["a"]⟩]⟩ ∧
    ¬ NoSelfLoop1 ⟨[⟨"a", "user", ["a"]⟩]⟩ ∧
    runOpsW ⟨[]⟩ [.addV "a" "user", .addE "a" "a" 1] =
      .ok ⟨[⟨"a", "user", [("a", 1)]⟩]⟩ ∧
    ¬ NoSelfLoopW ⟨[⟨"a", "user", [("a", 1)]⟩]⟩ := by decide

/-! ## Bridge lemmas for the computable rational operations -/

theorem qAdd_eq (a b : ℚ) : qAdd a b = a + b := by
  unfold qAdd
  have ha : ((a.den : ℚ)) ≠ 0 := by exact_mod_cast a.den_nz
  have hb : ((b.den : ℚ)) ≠ 0 := by exact_mod_cast b.den_nz
  have h1 : (a.num : ℚ) = a * a.den := by
    rw [← div_eq_iff ha]; exact Rat.num_div_den a
  have h2 : (b.num : ℚ) = b * b.den := by
    rw [← div_eq_iff hb]; exact Rat.num_div_den b
  rw [Rat.divInt_eq_div, div_eq_iff (by push_cast; exact mul_ne_zero ha hb)]
  push_cast
  rw [h1, h2]
  ring

theorem qMul_eq (a b : ℚ) : qMul a b = a * b := by
  unfold qMul
  have ha : ((a.den : ℚ)) ≠ 0 := by exact_mod_cast a.den_nz
  have hb : ((b.den : ℚ)) ≠ 0 := by exact_mod_cast b.den_nz
  have h1 : (a.num : ℚ) = a * a.den := by
    rw [← div_eq_iff ha]; exact Rat.num_div_den a
  have h2 : (b.num : ℚ) = b * b.den := by
    rw [← div_eq_iff hb]; exact Rat.num_div_den b
  rw [Rat.divInt_eq_div, div_eq_iff (by push_cast; exact mul_ne_zero ha hb)]
  push_cast
  rw [h1, h2]
  ring

theorem qDiv_eq (a b : ℚ) : qDiv a b = a / b := by
  unfold qDiv
  by_cases hb0 : b = 0
  · subst hb0
    simp
  · have ha : ((a.den : ℚ)) ≠ 0 := by exact_mod_cast a.den_nz
    have hbd : ((b.den : ℚ)) ≠ 0 := by exact_mod_cast b.den_nz
    have hbn : (b.num : ℚ) ≠ 0 := by
      exact_mod_cast Rat.num_ne_zero.mpr hb0
    have h1 : (a.num : ℚ) = a * a.den := by
      rw [← div_eq_iff ha]; exact Rat.num_div_den a
    have h2 : (b.num : ℚ) = b * b.den := by
      rw [← div_eq_iff hbd]; exact Rat.num_div_den b
    rw [Rat.divInt_eq_div, div_eq_div_iff (by push_cast; exact mul_ne_zero ha hbn) hb0]
    push_cast
    rw [h1, h2]
    ring

theorem qSum_eq (l : List ℚ) : qSum l = l.sum := by
  induction l with
  | nil => rfl
  | cons x l ih => rw [List.sum_cons, ← ih]; exact qAdd_eq x (qSum l)

theorem mkRat_eq_div' (n : ℤ) (d : ℕ) : mkRat n d = (n : ℚ) / (d : ℚ) := by
  rw [Rat.mkRat_eq_divInt, Rat.divInt_eq_div]
  push_cast
  rfl

/-! ## Cardinality views of the Python set sizes -/

theorem interLen_eq_card (a b : List Key) (ha : a.Nodup) :
    interLen a b = (a.toFinset ∩ b.toFinset).card := by
  unfold interLen
  rw [← List.toFinset_card_of_nodup (ha.filter _)]
  congr 1
  rw [List.toFinset_filter]
  ext x
  simp

theorem unionLen_eq_card (a b : List Key) (ha : a.Nodup) (hb : b.Nodup) :
    unionLen a b = (a.toFinset ∪ b.toFinset).card := by
  unfold unionLen
  have hspl : a.toFinset ∪ b.toFinset =
      a.toFinset ∪ (b.filter (fun k => !a.contains k)).toFinset := by
    ext x
    simp only [Finset.mem_union, List.mem_toFinset, List.mem_filter,
      Bool.not_eq_true']
    constructor
    · rintro (h | h)
      · exact Or.inl h
      · by_cases hxa : x ∈ a
        · exact Or.inl hxa
        · refine Or.inr ⟨h, ?_⟩
          simpa using hxa
    · rintro (h | ⟨h, -⟩)
      · exact Or.inl h
      · exact Or.inr h
  have hd : Disjoint a.toFinset (b.filter (fun k => !a.contains k)).toFinset := by
    rw [Finset.disjoint_left]
    intro x hxa hxb
    rw [List.mem_toFinset, List.mem_filter] at hxb
    have := hxb.2
    simp only [Bool.not_eq_true'] at this
    rw [List.mem_toFinset] at hxa
    simp [hxa] at this
  rw [hspl, Finset.card_union_of_disjoint hd,
    List.toFinset_card_of_nodup ha, List.toFinset_card_of_nodup (hb.filter _)]

/-! ## Symmetry of the similarity scores -/

theorem Vertex1.similarity_score_comm (v w : Vertex1)
    (hv : v.nbrs.Nodup) (hw : w.nbrs.Nodup) :
    v.similarity_score w = w.similarity_score v := by
  unfold Vertex1.similarity_score
  by_cases hd : v.degree = 0 ∨ w.degree = 0
  · rw [if_pos hd, if_pos hd.symm]
  · rw [if_neg hd, if_neg (fun h => hd h.symm)]
    rw [interLen_eq_card _ _ hv, interLen_eq_card _ _ hw,
      unionLen_eq_card _ _ hv hw, unionLen_eq_card _ _ hw hv,
      Finset.inter_comm, Finset.union_comm]

theorem WVertex.similarity_score_unweighted_comm (v w : WVertex)
    (hv : v.nbrKeys.Nodup) (hw : w.nbrKeys.Nodup) :
    v.similarity_score_unweighted w = w.similarity_score_unweighted v := by
  unfold WVertex.similarity_score_unweighted
  by_cases hd : v.degree = 0 ∨ w.degree = 0
  · rw [if_pos hd, if_pos hd.symm]
  · rw [if_neg hd, if_neg (fun h => hd h.symm)]
    rw [interLen_eq_card _ _ hv, interLen_eq_card _ _ hw,
      unionLen_eq_card _ _ hv hw, unionLen_eq_card _ _ hw hv,
      Finset.inter_comm, Finset.union_comm]

/-- The numerator of the strict score as a `Finset` cardinality. -/
theorem strictNum_eq_card (g : WGraph) (v w : WVertex) (hv : v.nbrKeys.Nodup) :
    (v.nbrKeys.filter (fun z => w.nbrKeys.contains z &&
        decide (g.nbrWeightOf z v.item = g.nbrWeightOf z w.item))).length =
      ((v.nbrKeys.toFinset ∩ w.nbrKeys.toFinset).filter
        (fun z => g.nbrWeightOf z v.item = g.nbrWeightOf z w.item)).card := by
  rw [← List.toFinset_card_of_nodup (hv.filter _)]
  congr 1
  rw [List.toFinset_filter]
  ext z
  simp only [Finset.mem_filter, Finset.mem_inter, List.mem_toFinset,
    Bool.and_eq_true, decide_eq_true_eq]
  constructor
  · rintro ⟨hzv, hzw, heq⟩
    exact ⟨⟨hzv, by simpa using hzw⟩, heq⟩
  · rintro ⟨⟨hzv, hzw⟩, heq⟩
    exact ⟨hzv, by simpa using hzw, heq⟩

theorem simStrict_comm (g : WGraph) (v w : WVertex)
    (hv : v.nbrKeys.Nodup) (hw : w.nbrKeys.Nodup) :
    simStrict g v w = simStrict g w v := by
  unfold simStrict
  by_cases hd : v.degree = 0 ∨ w.degree = 0
  · rw [if_pos hd, if_pos hd.symm]
  · rw [if_neg hd, if_neg (fun h => hd h.symm)]
    have hfil : ((v.nbrKeys.toFinset ∩ w.nbrKeys.toFinset).filter
        (fun z => g.nbrWeightOf z v.item = g.nbrWeightOf z w.item)) =
      ((w.nbrKeys.toFinset ∩ v.nbrKeys.toFinset).filter
        (fun z => g.nbrWeightOf z w.item = g.nbrWeightOf z v.item)) := by
      ext z
      simp only [Finset.mem_filter, Finset.mem_inter]
      constructor
      · rintro ⟨⟨hz1, hz2⟩, hz3⟩
        exact ⟨⟨hz2, hz1⟩, hz3.symm⟩
      · rintro ⟨⟨hz1, hz2⟩, hz3⟩
        exact ⟨⟨hz2, hz1⟩, hz3.symm⟩
    rw [strictNum_eq_card g v w hv, strictNum_eq_card g w v hw,
      unionLen_eq_card _ _ hv hw, unionLen_eq_card _ _ hw hv,
      Finset.union_comm, hfil]

/-! ## Claim C9 -/

/-- C9: similarity is symmetric on every pair of present vertices, for the
part-1 unweighted score and for both weighted score types. -/
theorem c9_similarity_symmetric (g1 : Graph1) (gW : WGraph)
    (a1 b1 aW bW : Key) (score_type : String)
    (h1 : g1.WF) (hW : gW.WF)
    (ha1 : a1 ∈ g1.items) (hb1 : b1 ∈ g1.items)
    (haW : aW ∈ gW.items) (hbW : bW ∈ gW.items) :
    g1.get_similarity_score a1 b1 = g1.get_similarity_score b1 a1 ∧
    gW.get_similarity_score aW bW score_type =
      gW.get_similarity_score bW aW score_type := by
  constructor
  · obtain ⟨va, hva⟩ := lookup1_of_mem ha1
    obtain ⟨vb, hvb⟩ := lookup1_of_mem hb1
    have hna : va.nbrs.Nodup := h1.2 va (lookup1_some hva).1
    have hnb : vb.nbrs.Nodup := h1.2 vb (lookup1_some hvb).1
    unfold Graph1.get_similarity_score
    rw [hva, hvb]
    exact congrArg Except.ok (Vertex1.similarity_score_comm va vb hna hnb)
  · obtain ⟨va, hva⟩ := lookupW_of_mem haW
    obtain ⟨vb, hvb⟩ := lookupW_of_mem hbW
    have hna : va.nbrKeys.Nodup := hW.2 va (lookupW_some hva).1
    have hnb : vb.nbrKeys.Nodup := hW.2 vb (lookupW_some hvb).1
    unfold WGraph.get_similarity_score
    have hca : gW.items.contains aW = true := by simpa using haW
    have hcb : gW.items.contains bW = true := by simpa using hbW
    simp only [hca, hcb, Bool.not_true, Bool.or_self, Bool.false_eq_true,
      if_false, hva, hvb]
    by_cases hst : score_type = "unweighted"
    · simp only [if_pos hst]
      exact congrArg Except.ok
        (WVertex.similarity_score_unweighted_comm va vb hna hnb)
    · simp only [if_neg hst]
      exact congrArg Except.ok (simStrict_comm gW va vb hna hnb)

/-- Witness for C9 on the concrete graphs `gEx1` and `gExW`. -/
theorem c9_witness :
    gEx1.get_similarity_score "a" "b" = gEx1.get_similarity_score "b" "a" ∧
    gExW.get_similarity_score "a" "b" "strict" =
      gExW.get_similarity_score "b" "a" "strict" :=
  c9_similarity_symmetric gEx1 gExW "a" "b" "a" "b" "strict"
    (by decide) (by decide) (by decide) (by decide) (by decide) (by decide)

/-! ## Claim C6 -/

/-- C6: on a mirrored-edge graph, the strict weighted similarity of two
present vertices is `0` when either has degree `0`, and otherwise equals the
number of common neighbours whose (mirrored) edge weights towards the two
vertices agree, divided by the size of the union of the neighbour-key sets. -/
theorem c6_strict_similarity_formula (g : WGraph) (a b : Key) (va vb : WVertex)
    (hWF : g.WF) (hM : g.Mirrored)
    (ha : g.lookup a = some va) (hb : g.lookup b = some vb) :
    g.get_similarity_score a b "strict" =
      .ok (if va.degree = 0 ∨ vb.degree = 0 then 0
        else (((va.nbrKeys.toFinset ∩ vb.nbrKeys.toFinset).filter
            (fun z => ∃ w, g.nbrWeightOf z a = some w ∧
              g.nbrWeightOf z b = some w)).card : ℚ) /
          ((va.nbrKeys.toFinset ∪ vb.nbrKeys.toFinset).card : ℚ)) := by
  have hva := lookupW_some ha
  have hvb := lookupW_some hb
  have hna : va.nbrKeys.Nodup := hWF.2 va hva.1
  have hnb : vb.nbrKeys.Nodup := hWF.2 vb hvb.1
  have hca : g.items.contains a = true := by
    simpa using mem_itemsW_of_lookup ha
  have hcb : g.items.contains b = true := by
    simpa using mem_itemsW_of_lookup hb
  unfold WGraph.get_similarity_score
  simp only [hca, hcb, Bool.not_true, Bool.or_self, Bool.false_eq_true,
    if_false, ha, hb]
  rw [if_neg (by decide : ¬ ("strict" : String) = "unweighted")]
  congr 1
  unfold simStrict
  by_cases hd : va.degree = 0 ∨ vb.degree = 0
  · rw [if_pos hd, if_pos hd]
  · rw [if_neg hd, if_neg hd]
    have hkey : ∀ z ∈ va.nbrKeys.toFinset ∩ vb.nbrKeys.toFinset,
        (g.nbrWeightOf z va.item = g.nbrWeightOf z vb.item) ↔
          (∃ w, g.nbrWeightOf z a = some w ∧ g.nbrWeightOf z b = some w) := by
      intro z hz
      rw [Finset.mem_inter, List.mem_toFinset, List.mem_toFinset] at hz
      obtain ⟨hz1, hz2⟩ := hz
      obtain ⟨p1, hp1, hp1e⟩ := List.mem_map.mp hz1
      obtain ⟨p2, hp2, hp2e⟩ := List.mem_map.mp hz2
      have h1 : g.nbrWeightOf z a = some p1.2 := by
        have hm := hM va hva.1 p1 hp1
        rw [hp1e, hva.2] at hm
        exact hm
      have h2 : g.nbrWeightOf z b = some p2.2 := by
        have hm := hM vb hvb.1 p2 hp2
        rw [hp2e, hvb.2] at hm
        exact hm
      rw [hva.2, hvb.2]
      constructor
      · intro he
        exact ⟨p1.2, h1, he ▸ h1⟩
      · rintro ⟨w, hw1, hw2⟩
        rw [hw1, hw2]
    have hnum : (va.nbrKeys.filter (fun z => vb.nbrKeys.contains z &&
        decide (g.nbrWeightOf z va.item = g.nbrWeightOf z vb.item))).length =
        ((va.nbrKeys.toFinset ∩ vb.nbrKeys.toFinset).filter
          (fun z => ∃ w, g.nbrWeightOf z a = some w ∧
            g.nbrWeightOf z b = some w)).card := by
      rw [strictNum_eq_card g va vb hna]
      exact congrArg Finset.card (Finset.filter_congr hkey)
    rw [mkRat_eq_div', unionLen_eq_card _ _ hna hnb, hnum]
    push_cast
    ring

/-- Witness for C6 on the concrete mirrored graph `gExW`. -/
theorem c6_witness :
    gExW.get_similarity_score "a" "b" "strict" =
      .ok (if WVertex.degree ⟨"a", "book", [("u", 3)]⟩ = 0 ∨
            WVertex.degree ⟨"b", "book", [("u", 3)]⟩ = 0 then 0
        else ((((WVertex.nbrKeys ⟨"a", "book", [("u", 3)]⟩).toFinset ∩
            (WVertex.nbrKeys ⟨"b", "book", [("u", 3)]⟩).toFinset).filter
            (fun z => ∃ w, gExW.nbrWeightOf z "a" = some w ∧
              gExW.nbrWeightOf z "b" = some w)).card : ℚ) /
          (((WVertex.nbrKeys ⟨"a", "book", [("u", 3)]⟩).toFinset ∪
            (WVertex.nbrKeys ⟨"b", "book", [("u", 3)]⟩).toFinset).card : ℚ)) :=
  c6_strict_similarity_formula gExW "a" "b"
    ⟨"a", "book", [("u", 3)]⟩ ⟨"b", "book", [("u", 3)]⟩
    (by decide) (by decide) (by decide) (by decide)

/-! ## Claim C3: the no-self-loop invariant for self-free call sequences -/

theorem Vertex1.addNbr_item (v : Vertex1) (k : Key) : (v.addNbr k).item = v.item := by
  unfold Vertex1.addNbr
  split <;> rfl

theorem Vertex1.addNbr_mem {v : Vertex1} {k x : Key}
    (h : x ∈ (v.addNbr k).nbrs) : x ∈ v.nbrs ∨ x = k := by
  unfold Vertex1.addNbr at h
  split at h
  · exact Or.inl h
  · rcases List.mem_append.mp h with h | h
    · exact Or.inl h
    · exact Or.inr (by simpa using h)

theorem noSelfLoop1_add_vertex (g : Graph1) (item : Key) (kind : String)
    (h : NoSelfLoop1 g) : NoSelfLoop1 (g.add_vertex item kind) := by
  unfold Graph1.add_vertex
  split
  · exact h
  · intro v hv
    rcases List.mem_append.mp hv with hv | hv
    · exact h v hv
    · have : v = ⟨item, kind, []⟩ := by simpa using hv
      subst this
      simp

theorem noSelfLoop1_add_edge {g g' : Graph1} {i1 i2 : Key} (hne : i1 ≠ i2)
    (h : NoSelfLoop1 g) (he : g.add_edge i1 i2 = .ok g') : NoSelfLoop1 g' := by
  unfold Graph1.add_edge at he
  split at he
  · cases he
    intro v hv
    obtain ⟨u, hu, rfl⟩ := List.mem_map.mp hv
    have hbase := h u hu
    dsimp only
    by_cases h1 : u.item = i1
    · by_cases h2 : u.item = i2
      · exact absurd (h1 ▸ h2) hne
      · rw [if_pos h1, if_neg (by rw [Vertex1.addNbr_item]; exact h2)]
        rw [Vertex1.addNbr_item]
        intro hmem
        rcases Vertex1.addNbr_mem hmem with hmem | hmem
        · exact hbase hmem
        · exact hne (h1 ▸ hmem)
    · rw [if_neg h1]
      by_cases h2 : u.item = i2
      · rw [if_pos h2, Vertex1.addNbr_item]
        intro hmem
        rcases Vertex1.addNbr_mem hmem with hmem | hmem
        · exact hbase hmem
        · exact hne (hmem ▸ h2)
      · rw [if_neg h2]
        exact hbase
  · cases he

theorem noSelfLoop1_runOps : ∀ (ops : List Op1) (g g' : Graph1),
    NoSelfLoop1 g → (∀ op ∈ ops, op.selfFree) →
    runOps1 g ops = .ok g' → NoSelfLoop1 g'
  | [], g, g', h, _, he => by
    cases he
    exact h
  | .addV item kind :: ops, g, g', h, hops, he => by
    exact noSelfLoop1_runOps ops _ g' (noSelfLoop1_add_vertex g item kind h)
      (fun op hop => hops op (List.mem_cons_of_mem _ hop)) he
  | .addE i1 i2 :: ops, g, g', h, hops, he => by
    unfold runOps1 at he
    cases hadd : g.add_edge i1 i2 with
    | error e =>
      rw [hadd] at he
      cases he
    | ok gm =>
      rw [hadd] at he
      have hne : i1 ≠ i2 := hops _ (List.mem_cons_self _ _)
      exact noSelfLoop1_runOps ops gm g'
        (noSelfLoop1_add_edge hne h hadd)
        (fun op hop => hops op (List.mem_cons_of_mem _ hop)) he

theorem setWeight_keys {al : List (Key × ℚ)} {k : Key} {w : ℚ} {x : Key}
    (h : x ∈ (setWeight al k w).map Prod.fst) :
    x ∈ al.map Prod.fst ∨ x = k := by
  unfold setWeight at h
  split at h
  · rw [List.map_map] at h
    obtain ⟨p, hp, hpe⟩ := List.mem_map.mp h
    by_cases hk : p.1 = k
    · right
      simpa [hk] using hpe.symm
    · left
      have : x = p.1 := by simpa [hk] using hpe.symm
      exact this ▸ List.mem_map_of_mem _ hp
  · rw [List.map_append] at h
    rcases List.mem_append.mp h with h | h
    · exact Or.inl h
    · exact Or.inr (by simpa using h)

theorem noSelfLoopW_add_vertex (g : WGraph) (item : Key) (kind : String)
    (h : NoSelfLoopW g) : NoSelfLoopW (g.add_vertex item kind) := by
  unfold WGraph.add_vertex
  split
  · exact h
  · intro v hv
    rcases List.mem_append.mp hv with hv | hv
    · exact h v hv
    · have : v = ⟨item, kind, []⟩ := by simpa using hv
      subst this
      simp [WVertex.nbrKeys]

theorem noSelfLoopW_add_edge {g g' : WGraph} {i1 i2 : Key} {w : ℚ}
    (hne : i1 ≠ i2) (h : NoSelfLoopW g) (he : g.add_edge i1 i2 w = .ok g') :
    NoSelfLoopW g' := by
  unfold WGraph.add_edge at he
  split at he
  · cases he
    intro v hv
    obtain ⟨u, hu, rfl⟩ := List.mem_map.mp hv
    have hbase := h u hu
    dsimp only
    by_cases h1 : u.item = i1
    · by_cases h2 : u.item = i2
      · exact absurd (h1 ▸ h2) hne
      · rw [if_pos h1, if_neg h2]
        intro hmem
        rcases setWeight_keys hmem with hmem | hmem
        · exact hbase hmem
        · exact hne (h1 ▸ hmem)
    · rw [if_neg h1]
      by_cases h2 : u.item = i2
      · rw [if_pos h2]
        intro hmem
        rcases setWeight_keys hmem with hmem | hmem
        · exact hbase hmem
        · exact hne (hmem ▸ h2)
      · rw [if_neg h2]
        exact hbase
  · cases he

theorem noSelfLoopW_runOps : ∀ (ops : List OpW) (g g' : WGraph),
    NoSelfLoopW g → (∀ op ∈ ops, op.selfFree) →
    runOpsW g ops = .ok g' → NoSelfLoopW g'
  | [], g, g', h, _, he => by
    cases he
    exact h
  | .addV item kind :: ops, g, g', h, hops, he => by
    exact noSelfLoopW_runOps ops _ g' (noSelfLoopW_add_vertex g item kind h)
      (fun op hop => hops op (List.mem_cons_of_mem _ hop)) he
  | .addE i1 i2 w :: ops, g, g', h, hops, he => by
    unfold runOpsW at he
    cases hadd : g.add_edge i1 i2 w with
    | error e =>
      rw [hadd] at he
      cases he
    | ok gm =>
      rw [hadd] at he
      have hne : i1 ≠ i2 := hops _ (List.mem_cons_self _ _)
      exact noSelfLoopW_runOps ops gm g'
        (noSelfLoopW_add_edge hne h hadd)
        (fun op hop => hops op (List.mem_cons_of_mem _ hop)) he

/-- C3 (amended): after any successful sequence of `add_vertex`/`add_edge`
calls from the empty graph in which `add_edge` is never called with two equal
items, no vertex of either graph variant holds itself as a neighbour.
(`add_edge(x, x)` itself does create a self-loop — see the counterexample.) -/
theorem c3_no_self_loop_without_self_edge (ops1 : List Op1) (opsW : List OpW)
    (g1 : Graph1) (gW : WGraph)
    (h1 : ∀ op ∈ ops1, op.selfFree) (hW : ∀ op ∈ opsW, op.selfFree)
    (e1 : runOps1 ⟨[]⟩ ops1 = .ok g1) (eW : runOpsW ⟨[]⟩ opsW = .ok gW) :
    NoSelfLoop1 g1 ∧ NoSelfLoopW gW :=
  ⟨noSelfLoop1_runOps ops1 ⟨[]⟩ g1 (fun v hv => by simp at hv) h1 e1,
   noSelfLoopW_runOps opsW ⟨[]⟩ gW (fun v hv => by simp at hv) hW eW⟩

/-- Witness for the amended C3 on concrete self-free call sequences. -/
theorem c3_witness :
    NoSelfLoop1 ⟨[⟨"a", "user", ["b"]⟩, ⟨"b", "book", ["a"]⟩]⟩ ∧
    NoSelfLoopW ⟨[⟨"a", "user", [("b", 4)]⟩, ⟨"b", "book", [("a", 4)]⟩]⟩ :=
  c3_no_self_loop_without_self_edge
    [.addV "a" "user", .addV "b" "book", .addE "a" "b"]
    [.addV "a" "user", .addV "b" "book", .addE "a" "b" 4]
    ⟨[⟨"a", "user", ["b"]⟩, ⟨"b", "book", ["a"]⟩]⟩
    ⟨[⟨"a", "user", [("b", 4)]⟩, ⟨"b", "book", [("a", 4)]⟩]⟩
    (by decide) (by decide) (by decide) (by decide)

/-! ## The nested-loop sort: loop-level to recursion-level equivalence -/

theorem pyStep_zero (better : α → α → Bool) (l : List α) (j : ℕ) :
    pyStep better l 0 j = l := by
  unfold pyStep
  rw [if_neg (Nat.not_lt_zero j)]

theorem pyStep_succ_succ (better : α → α → Bool) (a : α) (l : List α)
    (i j : ℕ) :
    pyStep better (a :: l) (i + 1) (j + 1) = a :: pyStep better l i j := by
  unfold pyStep
  by_cases hj : j < i
  · rw [if_pos (Nat.succ_lt_succ hj), if_pos hj]
    simp only [List.getElem?_cons_succ]
    cases l[i]? with
    | none => cases l[j]? <;> rfl
    | some x =>
      cases l[j]? with
      | none => rfl
      | some y => by_cases hb : better x y <;> simp [hb]
  · rw [if_neg (fun h => hj (Nat.lt_of_succ_lt_succ h)), if_neg hj]

theorem getElem?_append_cons :
    ∀ (ps : List α) (x : α) (rest : List α), (ps ++ x :: rest)[ps.length]? = some x
  | [], _, _ => by simp
  | p :: ps, x, rest => by
    simp only [List.cons_append, List.length_cons, List.getElem?_cons_succ]
    exact getElem?_append_cons ps x rest

theorem set_append_cons :
    ∀ (ps : List α) (x v : α) (rest : List α),
      (ps ++ x :: rest).set ps.length v = ps ++ v :: rest
  | [], _, _, _ => rfl
  | p :: ps, x, v, rest => by
    simp only [List.cons_append, List.length_cons, List.set_cons_succ,
      List.cons.injEq, true_and]
    exact set_append_cons ps x v rest

theorem pyInner_zero (better : α → α → Bool) (l : List α) :
    pyInner better 0 l = l := by
  unfold pyInner
  generalize List.range l.length = js
  induction js with
  | nil => rfl
  | cons j js ih =>
    rw [List.foldl_cons, pyStep_zero]
    exact ih

theorem foldl_pyStep_shift (better : α → α → Bool) :
    ∀ (js : List ℕ) (a : α) (l : List α) (i : ℕ),
      js.foldl (fun acc j => pyStep better acc (i + 1) (j + 1)) (a :: l) =
        a :: js.foldl (fun acc j => pyStep better acc i j) l
  | [], _, _, _ => rfl
  | j :: js, a, l, i => by
    simp only [List.foldl_cons, pyStep_succ_succ]
    exact foldl_pyStep_shift better js a _ i

theorem pyInner_split (better : α → α → Bool) :
    ∀ (pre : List α) (x : α) (rest : List α),
      pyInner better pre.length (pre ++ x :: rest) =
        (innerAux better pre x).1 ++ (innerAux better pre x).2 :: rest
  | [], x, rest => by
    simpa [innerAux] using pyInner_zero better (x :: rest)
  | p :: ps, x, rest => by
    have hstep0 : pyStep better ((p :: ps) ++ x :: rest) (p :: ps).length 0 =
        if better x p then x :: (ps ++ p :: rest) else p :: (ps ++ x :: rest) := by
      unfold pyStep
      simp only [List.cons_append, List.length_cons]
      rw [if_pos (Nat.succ_pos ps.length)]
      rw [List.getElem?_cons_succ, getElem?_append_cons, List.getElem?_cons_zero]
      dsimp only
      by_cases hb : better x p
      · simp only [hb, if_true, List.set_cons_succ, set_append_cons,
          List.set_cons_zero]
      · simp only [hb, if_false, Bool.false_eq_true]
    unfold pyInner
    have hlen : ((p :: ps) ++ x :: rest).length = (ps ++ x :: rest).length + 1 := by
      simp
    rw [hlen, List.range_succ_eq_map, List.foldl_cons]
    rw [hstep0]
    by_cases hb : better x p
    · rw [if_pos hb, List.foldl_map]
      simp only [Nat.succ_eq_add_one]
      have hshift := foldl_pyStep_shift better
        (List.range (ps ++ x :: rest).length) x (ps ++ p :: rest) ps.length
      rw [show (p :: ps).length = ps.length + 1 from rfl, hshift]
      have hn : (ps ++ x :: rest).length = (ps ++ p :: rest).length := by simp
      rw [hn]
      have hrec : (List.range (ps ++ p :: rest).length).foldl
          (fun acc j => pyStep better acc ps.length j) (ps ++ p :: rest) =
          pyInner better ps.length (ps ++ p :: rest) := rfl
      rw [hrec, pyInner_split better ps p rest]
      simp [innerAux, hb]
    · rw [if_neg hb, List.foldl_map]
      simp only [Nat.succ_eq_add_one]
      have hshift := foldl_pyStep_shift better
        (List.range (ps ++ x :: rest).length) p (ps ++ x :: rest) ps.length
      rw [show (p :: ps).length = ps.length + 1 from rfl, hshift]
      have hrec : (List.range (ps ++ x :: rest).length).foldl
          (fun acc j => pyStep better acc ps.length j) (ps ++ x :: rest) =
          pyInner better ps.length (ps ++ x :: rest) := rfl
      rw [hrec, pyInner_split better ps x rest]
      simp [innerAux, hb]

theorem innerAux_fst_length (better : α → α → Bool) :
    ∀ (pre : List α) (x : α), (innerAux better pre x).1.length = pre.length
  | [], _ => rfl
  | p :: ps, x => by
    unfold innerAux
    by_cases hb : better x p <;>
      simp [hb, innerAux_fst_length better ps]

theorem pySortLoop_go (better : α → α → Bool) :
    ∀ (rest acc : List α),
      (List.range' acc.length rest.length).foldl
        (fun acc2 i => pyInner better i acc2) (acc ++ rest) =
        outAux better acc rest
  | [], acc => by simp [outAux]
  | x :: rest, acc => by
    rw [show (x :: rest).length = rest.length + 1 from rfl, List.range'_succ,
      List.foldl_cons]
    rw [pyInner_split better acc x rest]
    have hassoc : (innerAux better acc x).1 ++ (innerAux better acc x).2 :: rest =
        ((innerAux better acc x).1 ++ [(innerAux better acc x).2]) ++ rest := by
      simp
    rw [hassoc]
    have hlen : acc.length + 1 =
        ((innerAux better acc x).1 ++ [(innerAux better acc x).2]).length := by
      simp [innerAux_fst_length better]
    rw [hlen, pySortLoop_go better rest _]
    conv_rhs => rw [outAux]

theorem pySortLoop_eq_outAux (better : α → α → Bool) (l : List α) :
    pySortLoop better l = outAux better [] l := by
  unfold pySortLoop
  rw [List.range_eq_range']
  simpa using pySortLoop_go better l []

/-! ## The nested-loop sort: permutation and sortedness -/

open List in
theorem innerAux_perm (better : α → α → Bool) :
    ∀ (pre : List α) (x : α),
      (innerAux better pre x).1 ++ [(innerAux better pre x).2] ~ pre ++ [x]
  | [], x => by simp [innerAux]
  | p :: ps, x => by
    unfold innerAux
    by_cases hb : better x p
    · simp only [hb, if_true, List.cons_append]
      calc x :: ((innerAux better ps p).1 ++ [(innerAux better ps p).2])
          ~ x :: (ps ++ [p]) := (innerAux_perm better ps p).cons x
        _ ~ x :: p :: ps := (List.perm_append_singleton p ps).cons x
        _ ~ p :: x :: ps := List.Perm.swap p x ps
        _ ~ p :: (ps ++ [x]) := ((List.perm_append_singleton x ps).symm).cons p
    · simp only [hb, Bool.false_eq_true, if_false, List.cons_append]
      exact (innerAux_perm better ps x).cons p

open List in
theorem outAux_perm (better : α → α → Bool) :
    ∀ (rest acc : List α), outAux better acc rest ~ acc ++ rest
  | [], acc => by simp [outAux]
  | x :: rest, acc => by
    rw [outAux]
    calc outAux better
          ((innerAux better acc x).1 ++ [(innerAux better acc x).2]) rest
        ~ ((innerAux better acc x).1 ++ [(innerAux better acc x).2]) ++ rest :=
          outAux_perm better rest _
      _ ~ (acc ++ [x]) ++ rest := (innerAux_perm better acc x).append_right rest
      _ = acc ++ x :: rest := by simp

theorem innerAux_pairwise (better : α → α → Bool)
    (htrans : ∀ a b c, better a b = true → better b c = true → better a c = true)
    (hirr : ∀ a, better a a = false) :
    ∀ (pre : List α) (x : α),
      (∀ p ∈ pre, p ≠ x → better p x = true ∨ better x p = true) →
      (∀ p ∈ pre, p ≠ x) →
      pre.Pairwise (fun a b => better a b = true) →
      ((innerAux better pre x).1 ++ [(innerAux better pre x).2]).Pairwise
        (fun a b => better a b = true)
  | [], x, _, _, _ => by simp [innerAux]
  | p :: ps, x, htot, hne, hsort => by
    rw [List.pairwise_cons] at hsort
    obtain ⟨hhead, htail⟩ := hsort
    unfold innerAux
    by_cases hb : better x p
    · simp only [hb, if_true, List.cons_append]
      rw [List.pairwise_cons]
      constructor
      · intro y hy
        have hy' : y ∈ ps ++ [p] :=
          (innerAux_perm better ps p).mem_iff.mp hy
        rcases List.mem_append.mp hy' with hy' | hy'
        · exact htrans x p y hb (hhead y hy')
        · have : y = p := by simpa using hy'
          exact this ▸ hb
      · exact innerAux_pairwise better htrans hirr ps p
          (fun q hq hqp => Or.inr (hhead q hq))
          (fun q hq hqp => by
            have := hhead q hq
            rw [hqp] at this
            exact absurd this (by simp [hirr]))
          htail
    · simp only [hb, Bool.false_eq_true, if_false, List.cons_append]
      rw [List.pairwise_cons]
      constructor
      · intro y hy
        have hy' : y ∈ ps ++ [x] :=
          (innerAux_perm better ps x).mem_iff.mp hy
        rcases List.mem_append.mp hy' with hy' | hy'
        · exact hhead y hy'
        · have hyx : y = x := by simpa using hy'
          subst hyx
          have hpy : p ≠ y := hne p (List.mem_cons_self p ps)
          rcases htot p (List.mem_cons_self p ps) hpy with h | h
          · exact h
          · rw [h] at hb
            exact absurd rfl hb
      · exact innerAux_pairwise better htrans hirr ps x
          (fun q hq => htot q (List.mem_cons_of_mem p hq))
          (fun q hq => hne q (List.mem_cons_of_mem p hq))
          htail

theorem outAux_pairwise (better : α → α → Bool)
    (htrans : ∀ a b c, better a b = true → better b c = true → better a c = true)
    (hirr : ∀ a, better a a = false) :
    ∀ (rest acc : List α),
      (∀ a ∈ acc ++ rest, ∀ b ∈ acc ++ rest, a ≠ b →
        better a b = true ∨ better b a = true) →
      (acc ++ rest).Nodup →
      acc.Pairwise (fun a b => better a b = true) →
      (outAux better acc rest).Pairwise (fun a b => better a b = true)
  | [], acc, _, _, hsort => hsort
  | x :: rest, acc, htot, hnd, hsort => by
    rw [outAux]
    have hmemx : x ∈ acc ++ x :: rest := by simp
    have hsort' := innerAux_pairwise better htrans hirr acc x
      (fun p hp hpx => htot p (by simp [hp]) x hmemx hpx)
      (fun p hp hpx => by
        subst hpx
        exact (List.nodup_append.mp hnd).2.2 hp (List.mem_cons_self _ _))
      hsort
    have hpermAll : List.Perm
        (((innerAux better acc x).1 ++ [(innerAux better acc x).2]) ++ rest)
        (acc ++ x :: rest) := by
      have h1 := (innerAux_perm better acc x).append_right rest
      have h2 : (acc ++ [x]) ++ rest = acc ++ x :: rest := by simp
      exact h2 ▸ h1
    refine outAux_pairwise better htrans hirr rest _ ?_ ?_ hsort'
    · intro a ha b hb' hab
      exact htot a (hpermAll.subset ha) b (hpermAll.subset hb') hab
    · exact hpermAll.symm.nodup hnd

/-! ## Order properties of the ranking comparison -/

theorem charListLt_irrefl : ∀ a : List Char, charListLt a a = false
  | [] => rfl
  | c :: cs => by
    simp [charListLt, lt_irrefl, charListLt_irrefl cs]

theorem charListLt_trans : ∀ a b c : List Char,
    charListLt a b = true → charListLt b c = true → charListLt a c = true
  | _, [], _ => by intro h; simp [charListLt] at h
  | [], _ :: _, [] => by intro _ h; simp [charListLt] at h
  | [], _ :: _, _ :: _ => by intro _ _; simp [charListLt]
  | _ :: _, _ :: _, [] => by intro _ h; simp [charListLt] at h
  | a :: as, b :: bs, c :: cs => by
    intro h1 h2
    simp only [charListLt] at h1 h2 ⊢
    by_cases hab : a < b
    · by_cases hbc : b < c
      · rw [if_pos (lt_trans hab hbc)]
      · rw [if_neg hbc] at h2
        by_cases hbc' : b = c
        · rw [if_pos (hbc' ▸ hab)]
        · rw [if_neg hbc'] at h2
          cases h2
    · rw [if_neg hab] at h1
      by_cases hab' : a = b
      · rw [if_pos hab'] at h1
        by_cases hbc : b < c
        · rw [if_pos (hab' ▸ hbc)]
        · rw [if_neg hbc] at h2
          by_cases hbc' : b = c
          · rw [if_neg (by rw [hab', hbc']; exact lt_irrefl c),
              if_pos (hab'.trans hbc')]
            rw [if_pos hbc'] at h2
            exact charListLt_trans as bs cs h1 h2
          · rw [if_neg hbc'] at h2
            cases h2
      · rw [if_neg hab'] at h1
        cases h1

theorem charListLt_total : ∀ a b : List Char, a ≠ b →
    charListLt a b = true ∨ charListLt b a = true
  | [], [], h => absurd rfl h
  | [], _ :: _, _ => Or.inl (by simp [charListLt])
  | _ :: _, [], _ => Or.inr (by simp [charListLt])
  | a :: as, b :: bs, h => by
    rcases lt_trichotomy a b with hab | hab | hab
    · left
      simp [charListLt, hab]
    · subst hab
      have hne : as ≠ bs := fun he => h (he ▸ rfl)
      rcases charListLt_total as bs hne with ht | ht <;>
        [left; right] <;> simp [charListLt, lt_irrefl, ht]
    · right
      simp [charListLt, hab]

theorem pyStrLt_irrefl (a : Key) : pyStrLt a a = false :=
  charListLt_irrefl a.data

theorem pyStrLt_trans {a b c : Key} (h1 : pyStrLt a b = true)
    (h2 : pyStrLt b c = true) : pyStrLt a c = true :=
  charListLt_trans a.data b.data c.data h1 h2

theorem pyStrLt_total {a b : Key} (h : a ≠ b) :
    pyStrLt a b = true ∨ pyStrLt b a = true := by
  refine charListLt_total a.data b.data (fun he => h ?_)
  cases a
  cases b
  exact congrArg String.mk he

theorem scoreBetter_iff (score : α → ℚ) (key : α → Key) (x y : α) :
    scoreBetter score key x y = true ↔
      score y < score x ∨ (score x = score y ∧ pyStrLt (key y) (key x) = true) := by
  simp [scoreBetter]

theorem scoreBetter_irrefl (score : α → ℚ) (key : α → Key) (x : α) :
    scoreBetter score key x x = false := by
  simp [scoreBetter, pyStrLt_irrefl]

theorem scoreBetter_trans (score : α → ℚ) (key : α → Key) (x y z : α)
    (h1 : scoreBetter score key x y = true)
    (h2 : scoreBetter score key y z = true) :
    scoreBetter score key x z = true := by
  rw [scoreBetter_iff] at h1 h2 ⊢
  rcases h1 with h1 | ⟨h1e, h1k⟩
  · rcases h2 with h2 | ⟨h2e, _⟩
    · exact Or.inl (lt_trans h2 h1)
    · exact Or.inl (h2e ▸ h1)
  · rcases h2 with h2 | ⟨h2e, h2k⟩
    · exact Or.inl (h1e ▸ h2)
    · exact Or.inr ⟨h1e.trans h2e, pyStrLt_trans h2k h1k⟩

theorem scoreBetter_total (score : α → ℚ) (key : α → Key) (x y : α)
    (hk : key x ≠ key y) :
    scoreBetter score key x y = true ∨ scoreBetter score key y x = true := by
  rcases lt_trichotomy (score x) (score y) with hs | hs | hs
  · exact Or.inr ((scoreBetter_iff _ _ _ _).mpr (Or.inl hs))
  · rcases pyStrLt_total hk with hkk | hkk
    · exact Or.inr ((scoreBetter_iff _ _ _ _).mpr (Or.inr ⟨hs.symm, hkk⟩))
    · exact Or.inl ((scoreBetter_iff _ _ _ _).mpr (Or.inr ⟨hs, hkk⟩))
  · exact Or.inl ((scoreBetter_iff _ _ _ _).mpr (Or.inl hs))

/-- Full correctness of the nested-loop ranking sort under a duplicate-free
key projection: the result is a permutation of the input, sorted so that
every element beats (`scoreBetter`) every later element. -/
theorem pySortLoop_sorted (score : α → ℚ) (key : α → Key) (l : List α)
    (hk : (l.map key).Nodup) :
    List.Perm (pySortLoop (scoreBetter score key) l) l ∧
    (pySortLoop (scoreBetter score key) l).Pairwise
      (fun a b => scoreBetter score key a b = true) := by
  have hnd : l.Nodup := hk.of_map key
  have hkey : ∀ a ∈ l, ∀ b ∈ l, a ≠ b → key a ≠ key b := by
    have hpw : l.Pairwise (fun a b => key a ≠ key b) :=
      List.pairwise_map.mp hk
    have hsym : Symmetric (fun a b : α => key a ≠ key b) :=
      fun a b h he => h he.symm
    exact fun a ha b hb hab => List.Pairwise.forall hsym hpw ha hb hab
  constructor
  · rw [pySortLoop_eq_outAux]
    simpa using outAux_perm (scoreBetter score key) l []
  · rw [pySortLoop_eq_outAux]
    refine outAux_pairwise (scoreBetter score key)
      (scoreBetter_trans score key) (scoreBetter_irrefl score key) l [] ?_ ?_ ?_
    · intro a ha b hb hab
      simp only [List.nil_append] at ha hb
      exact scoreBetter_total score key a b (hkey a ha b hb hab)
    · simpa using hnd
    · exact List.Pairwise.nil

/-! ## Claim C5 -/

theorem find?_key_eq {β : Type} (keyf : β → Key) :
    ∀ (L : List β) (v : β), (L.map keyf).Nodup → v ∈ L →
      L.find? (fun u => keyf u = keyf v) = some v
  | [], v, _, hv => absurd hv (List.not_mem_nil v)
  | u :: L, v, hnd, hv => by
    rw [List.map_cons, List.nodup_cons] at hnd
    by_cases he : keyf u = keyf v
    · have huv : u = v := by
        rcases List.mem_cons.mp hv with rfl | hvL
        · rfl
        · exact absurd (he ▸ List.mem_map_of_mem keyf hvL) hnd.1
      rw [List.find?_cons_of_pos _ (by simp [he])]
      rw [huv]
    · rcases List.mem_cons.mp hv with rfl | hvL
      · exact absurd rfl he
      · rw [List.find?_cons_of_neg _ (by simp [he])]
        exact find?_key_eq keyf L v hnd.2 hvL

theorem lookup1_item {g : Graph1} (hWF : g.WF) {v : Vertex1}
    (hv : v ∈ g.verts) : g.lookup v.item = some v := by
  unfold Graph1.lookup
  exact find?_key_eq (fun u => u.item) g.verts v hWF.1 hv

theorem lookupW_item {g : WGraph} (hWF : g.WF) {v : WVertex}
    (hv : v ∈ g.verts) : g.lookup v.item = some v := by
  unfold WGraph.lookup
  exact find?_key_eq (fun u => u.item) g.verts v hWF.1 hv

/-- The sorted-and-filtered candidate list of the ranking pipeline: its
elements are non-zero-scoring members of the candidate pool, and it is
sorted by the ranking comparison. -/
theorem kept_facts (score : α → ℚ) (key : α → Key) (pos : List α)
    (hk : (pos.map key).Nodup) :
    ((pySortLoop (scoreBetter score key) pos).filter
        (fun x => decide (score x ≠ 0))).Pairwise
      (fun a b => scoreBetter score key a b = true) ∧
    ∀ v ∈ (pySortLoop (scoreBetter score key) pos).filter
        (fun x => decide (score x ≠ 0)), score v ≠ 0 ∧ v ∈ pos := by
  obtain ⟨hperm, hsort⟩ := pySortLoop_sorted score key pos hk
  constructor
  · exact hsort.filter _
  · intro v hv
    rw [List.mem_filter] at hv
    refine ⟨by simpa using hv.2, hperm.subset hv.1⟩

/-- One ranking-pipeline case analysis, shared by the part-1 and weighted
`recommend_books` proofs: whichever branch produced the result, the returned
keys all score non-zero and are pairwise ordered by descending score with
descending-key ties. -/
theorem pipeline_case (score : α → ℚ) (key : α → Key) (pos : List α)
    (hk : (pos.map key).Nodup) (limit : ℤ) (r : List α ⊕ List Key)
    (e : (if limit ≤ (((pySortLoop (scoreBetter score key) pos).filter
            (fun x => decide (score x ≠ 0))).length : ℤ) then
          (Sum.inr ((((pySortLoop (scoreBetter score key) pos).filter
            (fun x => decide (score x ≠ 0))).take (limit + 1).toNat).map key) :
              List α ⊕ List Key)
        else Sum.inl ((pySortLoop (scoreBetter score key) pos).filter
            (fun x => decide (score x ≠ 0)))) = r)
    (keyScore : Key → ℚ)
    (hks : ∀ v ∈ pos, keyScore (key v) = score v) :
    (∀ k ∈ (match r with | .inl vs => vs.map key | .inr ks => ks),
      keyScore k ≠ 0) ∧
    (match r with | .inl vs => vs.map key | .inr ks => ks).Pairwise
      (fun a b => keyScore b < keyScore a ∨
        (keyScore a = keyScore b ∧ pyStrLt b a = true)) := by
  obtain ⟨hsorted, hmem⟩ := kept_facts score key pos hk
  have main : ∀ sel : List α,
      sel.Sublist ((pySortLoop (scoreBetter score key) pos).filter
        (fun x => decide (score x ≠ 0))) →
      (∀ k ∈ sel.map key, keyScore k ≠ 0) ∧
      (sel.map key).Pairwise (fun a b => keyScore b < keyScore a ∨
        (keyScore a = keyScore b ∧ pyStrLt b a = true)) := by
    intro sel hsub
    constructor
    · intro k hkk
      obtain ⟨v, hv, rfl⟩ := List.mem_map.mp hkk
      have hvk := hsub.subset hv
      rw [hks v (hmem v hvk).2]
      exact (hmem v hvk).1
    · rw [List.pairwise_map]
      refine List.Pairwise.imp_of_mem ?_ (hsorted.sublist hsub)
      intro a b ha hb hab
      have hak := hsub.subset ha
      have hbk := hsub.subset hb
      rw [scoreBetter_iff] at hab
      rw [hks a (hmem a hak).2, hks b (hmem b hbk).2]
      exact hab
  split at e
  · subst e
    exact main _ (List.take_sublist _ _)
  · subst e
    exact main _ (List.Sublist.refl _)

/-- C5 counterexample: with three candidates all scoring `1` against the
query `q`, the returned order is `["q", "b", "a"]` (here with `limit = 4`,
so the unconverted vertex objects come back): equal-score ties are in
descending item-key order — `"a" < "b"` yet `"b"` precedes `"a"` — refuting
the claimed ascending tie order. -/
theorem c5_counterexample :
    gEx1.recommend_books "q" 4 = .ok (.inl
      [⟨"q", "book", ["u"]⟩, ⟨"b", "book", ["u"]⟩, ⟨"a", "book", ["u"]⟩]) ∧
    Vertex1.similarity_score ⟨"b", "book", ["u"]⟩ ⟨"q", "book", ["u"]⟩ =
      Vertex1.similarity_score ⟨"a", "book", ["u"]⟩ ⟨"q", "book", ["u"]⟩ ∧
    pyStrLt "a" "b" = true := by decide

/-- C5 (amended): every `recommend_books` result (part-1 and weighted, any
score type) lists only candidates with non-zero similarity to the query, in
descending similarity order with equal-score ties in *descending*
lexicographic item-key order. -/
theorem c5_rank_order
    (g1 : Graph1) (gW : WGraph) (b1 bW : Key) (l1 lW : ℤ) (score_type : String)
    (h1 : g1.WF) (hW : gW.WF)
    (q1 : Vertex1) (qW : WVertex)
    (hq1 : g1.lookup b1 = some q1) (hqW : gW.lookup bW = some qW)
    (r1 : List Vertex1 ⊕ List Key) (rW : List WVertex ⊕ List Key)
    (e1 : g1.recommend_books b1 l1 = .ok r1)
    (eW : gW.recommend_books bW lW score_type = .ok rW) :
    ((∀ k ∈ recKeys1 r1, keyScore1 g1 q1 k ≠ 0) ∧
      (recKeys1 r1).Pairwise (fun a b => keyScore1 g1 q1 b < keyScore1 g1 q1 a ∨
        (keyScore1 g1 q1 a = keyScore1 g1 q1 b ∧ pyStrLt b a = true))) ∧
    ((∀ k ∈ recKeysW rW, keyScoreW gW qW score_type k ≠ 0) ∧
      (recKeysW rW).Pairwise
        (fun a b => keyScoreW gW qW score_type b < keyScoreW gW qW score_type a ∨
          (keyScoreW gW qW score_type a = keyScoreW gW qW score_type b ∧
            pyStrLt b a = true))) := by
  constructor
  · unfold Graph1.recommend_books at e1
    rw [hq1] at e1
    dsimp only at e1
    rw [← apply_ite Except.ok] at e1
    have e1' := Except.ok.inj e1
    have hknd : ((g1.verts.filter (·.kind = "book")).map (·.item)).Nodup :=
      h1.1.sublist ((List.filter_sublist _).map _)
    have hks : ∀ v ∈ g1.verts.filter (·.kind = "book"),
        keyScore1 g1 q1 v.item = v.similarity_score q1 := by
      intro v hv
      unfold keyScore1
      rw [lookup1_item h1 (List.mem_of_mem_filter hv)]
    clear e1
    cases r1 with
    | inl vs =>
      exact pipeline_case (fun v => v.similarity_score q1) (fun v => v.item)
        (g1.verts.filter (·.kind = "book")) hknd l1 (.inl vs) e1'
        (keyScore1 g1 q1) hks
    | inr ks =>
      exact pipeline_case (fun v => v.similarity_score q1) (fun v => v.item)
        (g1.verts.filter (·.kind = "book")) hknd l1 (.inr ks) e1'
        (keyScore1 g1 q1) hks
  · unfold WGraph.recommend_books at eW
    rw [hqW] at eW
    dsimp only at eW
    rw [← apply_ite Except.ok] at eW
    have eW' := Except.ok.inj eW
    have hknd : ((gW.verts.filter (·.kind = "book")).map (·.item)).Nodup :=
      hW.1.sublist ((List.filter_sublist _).map _)
    have hks : ∀ v ∈ gW.verts.filter (·.kind = "book"),
        keyScoreW gW qW score_type v.item = recScoreW gW qW score_type v := by
      intro v hv
      unfold keyScoreW
      rw [lookupW_item hW (List.mem_of_mem_filter hv)]
    clear eW
    cases rW with
    | inl vs =>
      exact pipeline_case (recScoreW gW qW score_type) (fun v => v.item)
        (gW.verts.filter (·.kind = "book")) hknd lW (.inl vs) eW'
        (keyScoreW gW qW score_type) hks
    | inr ks =>
      exact pipeline_case (recScoreW gW qW score_type) (fun v => v.item)
        (gW.verts.filter (·.kind = "book")) hknd lW (.inr ks) eW'
        (keyScoreW gW qW score_type) hks

/-- Witness for the amended C5 at the concrete graphs. -/
theorem c5_witness :
    ((∀ k ∈ recKeys1 (.inr ["q", "b", "a"]),
        keyScore1 gEx1 ⟨"q", "book", ["u"]⟩ k ≠ 0) ∧
      (recKeys1 (.inr ["q", "b", "a"])).Pairwise
        (fun a b => keyScore1 gEx1 ⟨"q", "book", ["u"]⟩ b <
            keyScore1 gEx1 ⟨"q", "book", ["u"]⟩ a ∨
          (keyScore1 gEx1 ⟨"q", "book", ["u"]⟩ a =
            keyScore1 gEx1 ⟨"q", "book", ["u"]⟩ b ∧ pyStrLt b a = true))) ∧
    ((∀ k ∈ recKeysW (.inr ["q", "b", "a"]),
        keyScoreW gExW ⟨"q", "book", [("u", 3)]⟩ "strict" k ≠ 0) ∧
      (recKeysW (.inr ["q", "b", "a"])).Pairwise
        (fun a b => keyScoreW gExW ⟨"q", "book", [("u", 3)]⟩ "strict" b <
            keyScoreW gExW ⟨"q", "book", [("u", 3)]⟩ "strict" a ∨
          (keyScoreW gExW ⟨"q", "book", [("u", 3)]⟩ "strict" a =
            keyScoreW gExW ⟨"q", "book", [("u", 3)]⟩ "strict" b ∧
            pyStrLt b a = true))) :=
  c5_rank_order gEx1 gExW "q" "q" 3 3 "strict" (by decide) (by decide)
    ⟨"q", "book", ["u"]⟩ ⟨"q", "book", [("u", 3)]⟩ (by decide) (by decide)
    (.inr ["q", "b", "a"]) (.inr ["q", "b", "a"]) (by decide) (by decide)

/-! ## Claim C8: clustering merge counts -/

theorem mapM_ok_of_forall {β : Type} (f : β → Except PyErr ℚ) :
    ∀ (l : List β), (∀ b ∈ l, ∃ q, f b = .ok q ∧ 0 ≤ q) →
      ∃ qs : List ℚ, l.mapM f = .ok qs ∧ ∀ q ∈ qs, 0 ≤ q
  | [], _ => ⟨[], rfl, by simp⟩
  | b :: l, h => by
    obtain ⟨q, hq, hq0⟩ := h b (List.mem_cons_self _ _)
    obtain ⟨qs, hqs, hqs0⟩ :=
      mapM_ok_of_forall f l (fun c hc => h c (List.mem_cons_of_mem _ hc))
    refine ⟨q :: qs, ?_, ?_⟩
    · rw [List.mapM_cons, hq, hqs]
      rfl
    · intro p hp
      rcases List.mem_cons.mp hp with rfl | hp
      · exact hq0
      · exact hqs0 _ hp

theorem qSum_nonneg (l : List ℚ) (h : ∀ q ∈ l, 0 ≤ q) : 0 ≤ qSum l := by
  rw [qSum_eq]
  exact List.sum_nonneg h

theorem get_weight_ok (g : WGraph) (hw : g.NonnegWeights) (x y : Key)
    (hx : x ∈ g.items) (hy : y ∈ g.items) :
    ∃ q, g.get_weight x y = .ok q ∧ 0 ≤ q := by
  obtain ⟨vx, hvx⟩ := lookupW_of_mem hx
  obtain ⟨vy, hvy⟩ := lookupW_of_mem hy
  unfold WGraph.get_weight
  rw [hvx, hvy]
  refine ⟨(vx.nbrs.lookup y).getD 0, rfl, ?_⟩
  cases hl : vx.nbrs.lookup y with
  | none => simp
  | some w =>
    simp only [Option.getD_some]
    have hmem : (y, w) ∈ vx.nbrs := by
      obtain ⟨l1, l2, he, -⟩ := List.lookup_eq_some_iff.mp hl
      rw [he]
      simp
    exact hw vx (lookupW_some hvx).1 (y, w) hmem

theorem cross_cluster_weight_ok (g : WGraph) (hw : g.NonnegWeights)
    (c1 c2 : List Key) (h1 : ∀ x ∈ c1, x ∈ g.items)
    (h2 : ∀ y ∈ c2, y ∈ g.items) :
    ∃ q, cross_cluster_weight g c1 c2 = .ok q ∧ 0 ≤ q := by
  unfold cross_cluster_weight
  obtain ⟨qs, hqs, hqs0⟩ := mapM_ok_of_forall
    (fun p => g.get_weight p.1 p.2)
    (c1.flatMap fun x => c2.map fun y => (x, y))
    (by
      intro p hp
      rw [List.mem_flatMap] at hp
      obtain ⟨x, hx, hp⟩ := hp
      rw [List.mem_map] at hp
      obtain ⟨y, hy, rfl⟩ := hp
      exact get_weight_ok g hw x y (h1 x hx) (h2 y hy))
  rw [hqs]
  refine ⟨_, rfl, ?_⟩
  rw [qDiv_eq]
  exact div_nonneg (qSum_nonneg qs hqs0) (by positivity)

/-- Generic invariant-carrying evaluation of an error-free `foldlM`. -/
theorem foldlM_inv {σ β : Type} (f : σ → β → Except PyErr σ) (P : σ → Prop) :
    ∀ (l : List β) (s : σ), P s →
      (∀ s' b, b ∈ l → P s' → ∃ s'', f s' b = .ok s'' ∧ P s'') →
      ∃ s', l.foldlM f s = .ok s' ∧ P s'
  | [], s, hs, _ => ⟨s, rfl, hs⟩
  | b :: l, s, hs, hf => by
    obtain ⟨s1, hs1, hP1⟩ := hf s b (List.mem_cons_self _ _) hs
    obtain ⟨s', hs', hP'⟩ := foldlM_inv f P l s1 hP1
      (fun s'' c hc => hf s'' c (List.mem_cons_of_mem _ hc))
    refine ⟨s', ?_, hP'⟩
    rw [List.foldlM_cons, hs1]
    exact hs'

theorem mem_getD {cs : List (List Key)} {i : ℕ} (hi : i < cs.length) :
    cs.getD i [] ∈ cs := by
  rw [List.getD_eq_getElem?_getD, List.getElem?_eq_getElem hi]
  exact List.getElem_mem hi

theorem inv_nodup {g : WGraph} {cs : List (List Key)}
    (hinv : ClustersInv g cs) : cs.Nodup := by
  refine hinv.2.imp_of_mem ?_
  intro c d hc hd hcd he
  subst he
  obtain ⟨hne, -⟩ := hinv.1 c hc
  obtain ⟨x, hx⟩ := List.exists_mem_of_ne_nil c hne
  exact hcd x hx hx

theorem inv_disj_all {g : WGraph} {cs : List (List Key)}
    (hinv : ClustersInv g cs) :
    ∀ c ∈ cs, ∀ d ∈ cs, c ≠ d → ∀ x ∈ c, x ∉ d := by
  have hsym : Symmetric (fun c d : List Key => ∀ x ∈ c, x ∉ d) := by
    intro c d h x hxd hxc
    exact h x hxc hxd
  exact fun c hc d hd hcd => List.Pairwise.forall hsym hinv.2 hc hd hcd

theorem inv_getD_ne {g : WGraph} {cs : List (List Key)}
    (hinv : ClustersInv g cs) {i1 i2 : ℕ}
    (h12 : i1 < i2) (h2 : i2 < cs.length) : cs.getD i1 [] ≠ cs.getD i2 [] := by
  have h1 : i1 < cs.length := lt_trans h12 h2
  have hnd : cs.Pairwise (· ≠ ·) := inv_nodup hinv
  rw [List.pairwise_iff_getElem] at hnd
  rw [List.getD_eq_getElem?_getD, List.getElem?_eq_getElem h1,
    List.getD_eq_getElem?_getD, List.getElem?_eq_getElem h2]
  simpa using hnd i1 i2 h1 h2 h12

theorem map_erase_key (f : List Key → List Key) (c1 : List Key)
    (hf1 : f c1 = c1) :
    ∀ cs : List (List Key), (∀ d ∈ cs, f d = c1 → d = c1) →
      (cs.map f).erase c1 = (cs.erase c1).map f
  | [], _ => rfl
  | d :: cs, h => by
    by_cases hd : d = c1
    · subst hd
      rw [List.map_cons, hf1, List.erase_cons_head, List.erase_cons_head]
    · have hfd : f d ≠ c1 := fun he => hd (h d (List.mem_cons_self _ _) he)
      rw [List.map_cons, List.erase_cons_tail (by simpa using hfd),
        List.erase_cons_tail (by simpa using hd), List.map_cons,
        map_erase_key f c1 hf1 cs (fun e he => h e (List.mem_cons_of_mem _ he))]

theorem mergeInto_facts (g : WGraph) (cs : List (List Key)) (c1 c2 : List Key)
    (hinv : ClustersInv g cs) (h1 : c1 ∈ cs) (h2 : c2 ∈ cs) (hne : c1 ≠ c2) :
    (mergeInto cs c1 c2).length + 1 = cs.length ∧
      ClustersInv g (mergeInto cs c1 c2) := by
  have hdisj := inv_disj_all hinv
  have hnd : cs.Nodup := inv_nodup hinv
  obtain ⟨hc2ne, hc2i⟩ := hinv.1 c2 h2
  obtain ⟨hc1ne, hc1i⟩ := hinv.1 c1 h1
  set f : List Key → List Key :=
    fun c => if c = c2 then c2 ++ c1.filter (fun x => !c2.contains x) else c
    with hf
  have hfc2 : f c2 = c2 ++ c1.filter (fun x => !c2.contains x) := if_pos rfl
  have hfother : ∀ d, d ≠ c2 → f d = d := fun d hd => if_neg hd
  have hf1 : f c1 = c1 := hfother c1 hne
  have huniq : ∀ d ∈ cs, f d = c1 → d = c1 := by
    intro d hd hfd
    by_cases hdc2 : d = c2
    · exfalso
      rw [hdc2] at hfd hd
      rw [hfc2] at hfd
      obtain ⟨x, hx⟩ := List.exists_mem_of_ne_nil c2 hc2ne
      have hxu : x ∈ c2 ++ c1.filter (fun x => !c2.contains x) :=
        List.mem_append.mpr (Or.inl hx)
      rw [hfd] at hxu
      exact hdisj c2 h2 c1 h1 (fun he => hne he.symm) x hx hxu
    · rw [hfother d hdc2] at hfd
      exact hfd
  have hkey : mergeInto cs c1 c2 = (cs.erase c1).map f := by
    unfold mergeInto
    exact map_erase_key f c1 hf1 cs huniq
  have hc1notin : c1 ∉ cs.erase c1 := hnd.not_mem_erase
  constructor
  · rw [hkey, List.length_map, List.length_erase_of_mem h1]
    have : 0 < cs.length := List.length_pos.mpr (List.ne_nil_of_mem h1)
    omega
  · rw [hkey]
    constructor
    · intro c hc
      rw [List.mem_map] at hc
      obtain ⟨d, hd, rfl⟩ := hc
      have hdcs : d ∈ cs := List.mem_of_mem_erase hd
      obtain ⟨hdne, hdi⟩ := hinv.1 d hdcs
      by_cases hdc2 : d = c2
      · rw [hdc2, hfc2]
        refine ⟨by simp [hc2ne], ?_⟩
        intro x hx
        rcases List.mem_append.mp hx with hx | hx
        · exact hc2i x hx
        · exact hc1i x (List.mem_of_mem_filter hx)
      · rw [hfother d hdc2]
        exact ⟨hdne, hdi⟩
    · rw [List.pairwise_map]
      have hbase : (cs.erase c1).Pairwise (fun c d => ∀ x ∈ c, x ∉ d) :=
        hinv.2.sublist (List.erase_sublist _ _)
      refine hbase.imp_of_mem ?_
      intro u v hu hv huv
      have hucs : u ∈ cs := List.mem_of_mem_erase hu
      have hvcs : v ∈ cs := List.mem_of_mem_erase hv
      have hune : u ≠ c1 := fun he => hc1notin (he ▸ hu)
      have hvne : v ≠ c1 := fun he => hc1notin (he ▸ hv)
      have huv' : u ≠ v := by
        intro he
        subst he
        obtain ⟨hne', -⟩ := hinv.1 u hucs
        obtain ⟨x, hx⟩ := List.exists_mem_of_ne_nil u hne'
        exact huv x hx hx
      by_cases huc2 : u = c2
      · have hvc2 : v ≠ c2 := fun he => huv' (huc2.trans he.symm)
        rw [huc2, hfc2, hfother v hvc2]
        intro x hx
        rcases List.mem_append.mp hx with hx | hx
        · rw [huc2] at huv
          exact huv x hx
        · exact hdisj c1 h1 v hvcs (fun he => hvne he.symm) x
            (List.mem_of_mem_filter hx)
      · by_cases hvc2 : v = c2
        · rw [hvc2, hfc2, hfother u huc2]
          intro x hx hxv
          rcases List.mem_append.mp hxv with hxv | hxv
          · rw [hvc2] at huv
            exact huv x hx hxv
          · exact hdisj u hucs c1 h1 hune x hx (List.mem_of_mem_filter hxv)
        · rw [hfother u huc2, hfother v hvc2]
          exact huv

theorem Except.ok_bind {ε α β : Type} (a : α) (f : α → Except ε β) :
    (Except.ok a >>= f : Except ε β) = f a := rfl

theorem greedy_body_ok (g : WGraph) (cs : List (List Key)) (hw : g.NonnegWeights)
    (hinv : ClustersInv g cs) (i1 i2 : ℕ)
    (acc : ℚ × Option (List Key) × Option (List Key))
    (h12 : i1 < i2) (h2 : i2 < cs.length)
    (hQ : ScanState cs acc ∨ acc = ((-1 : ℚ), none, none)) :
    ∃ acc', (cross_cluster_weight g (cs.getD i1 []) (cs.getD i2 []) >>=
        fun score => pure (if acc.1 < score then
          (score, some (cs.getD i1 []), some (cs.getD i2 [])) else acc)) =
        .ok acc' ∧ ScanState cs acc' := by
  have h1 : i1 < cs.length := lt_trans h12 h2
  obtain ⟨q, hq, hq0⟩ := cross_cluster_weight_ok g hw
    (cs.getD i1 []) (cs.getD i2 [])
    (fun x hx => (hinv.1 _ (mem_getD h1)).2 x hx)
    (fun y hy => (hinv.1 _ (mem_getD h2)).2 y hy)
  have hq1 : (-1 : ℚ) < q := lt_of_lt_of_le (by norm_num) hq0
  rw [hq, Except.ok_bind]
  by_cases hlt : acc.1 < q
  · refine ⟨(q, some (cs.getD i1 []), some (cs.getD i2 [])), ?_, ?_⟩
    · rw [if_pos hlt]
      rfl
    · exact ⟨cs.getD i1 [], mem_getD h1, cs.getD i2 [], mem_getD h2,
        inv_getD_ne hinv h12 h2, rfl, rfl, hq1⟩
  · rcases hQ with hS | hN
    · exact ⟨acc, by rw [if_neg hlt]; rfl, hS⟩
    · exfalso
      rw [hN] at hlt
      exact hlt hq1

theorem greedy_inner_fold (g : WGraph) (cs : List (List Key))
    (hw : g.NonnegWeights) (hinv : ClustersInv g cs) (i1 : ℕ) :
    ∀ (js : List ℕ), (∀ j ∈ js, i1 < j ∧ j < cs.length) →
    ∀ acc, (ScanState cs acc ∨ acc = ((-1 : ℚ), none, none)) →
    ∃ acc', (js.foldlM (fun acc i2 =>
        cross_cluster_weight g (cs.getD i1 []) (cs.getD i2 []) >>=
          fun score => pure (if acc.1 < score then
            (score, some (cs.getD i1 []), some (cs.getD i2 [])) else acc)) acc) =
        .ok acc' ∧ (ScanState cs acc' ∨ acc' = acc) ∧
        (js ≠ [] → ScanState cs acc')
  | [], _, acc, _ => ⟨acc, rfl, Or.inr rfl, by simp⟩
  | j :: js, hjs, acc, hQ => by
    obtain ⟨hj1, hj2⟩ := hjs j (List.mem_cons_self _ _)
    obtain ⟨acc1, hacc1, hS1⟩ := greedy_body_ok g cs hw hinv i1 j acc hj1 hj2 hQ
    obtain ⟨acc', hacc', hP', -⟩ := greedy_inner_fold g cs hw hinv i1 js
      (fun j' hj' => hjs j' (List.mem_cons_of_mem _ hj')) acc1 (Or.inl hS1)
    have hSacc' : ScanState cs acc' := by
      rcases hP' with h | h
      · exact h
      · exact h ▸ hS1
    refine ⟨acc', ?_, Or.inl hSacc', fun _ => hSacc'⟩
    rw [List.foldlM_cons, hacc1]
    exact hacc'

theorem greedyScan_some (g : WGraph) (cs : List (List Key))
    (hw : g.NonnegWeights) (hinv : ClustersInv g cs) (hlen : 2 ≤ cs.length) :
    ∃ acc, greedyScan g cs = .ok acc ∧ ScanState cs acc := by
  have hgs : greedyScan g cs = (List.range cs.length).foldlM (fun acc i1 =>
      (List.range' (i1 + 1) (cs.length - (i1 + 1))).foldlM (fun acc i2 =>
        cross_cluster_weight g (cs.getD i1 []) (cs.getD i2 []) >>=
          fun score => pure (if acc.1 < score then
            (score, some (cs.getD i1 []), some (cs.getD i2 [])) else acc)) acc)
      ((-1 : ℚ), none, none) := rfl
  rw [hgs]
  have hrange : List.range cs.length = 0 :: List.range' 1 (cs.length - 1) := by
    obtain ⟨m, hm⟩ : ∃ m, cs.length = m + 1 := ⟨cs.length - 1, by omega⟩
    rw [List.range_eq_range', hm, List.range'_succ]
    simp
  rw [hrange, List.foldlM_cons]
  have hjs0 : ∀ j ∈ List.range' (0 + 1) (cs.length - (0 + 1)),
      0 < j ∧ j < cs.length := by
    intro j hj
    rw [List.mem_range'_1] at hj
    omega
  obtain ⟨acc1, hacc1, -, hS1⟩ := greedy_inner_fold g cs hw hinv 0
    (List.range' (0 + 1) (cs.length - (0 + 1))) hjs0
    ((-1 : ℚ), none, none) (Or.inr rfl)
  have hne0 : List.range' (0 + 1) (cs.length - (0 + 1)) ≠ [] := by
    have hlr : (List.range' (0 + 1) (cs.length - (0 + 1))).length =
        cs.length - (0 + 1) := List.length_range' _ _ _
    intro he
    rw [he] at hlr
    simp only [List.length_nil] at hlr
    omega
  have hS1' : ScanState cs acc1 := hS1 hne0
  rw [hacc1, Except.ok_bind]
  exact foldlM_inv (fun acc i1 =>
      (List.range' (i1 + 1) (cs.length - (i1 + 1))).foldlM (fun acc i2 =>
        cross_cluster_weight g (cs.getD i1 []) (cs.getD i2 []) >>=
          fun score => pure (if acc.1 < score then
            (score, some (cs.getD i1 []), some (cs.getD i2 [])) else acc)) acc)
    (ScanState cs) (List.range' 1 (cs.length - 1)) acc1 hS1'
    (by
      intro s i1 hi1 hs
      have hjs : ∀ j ∈ List.range' (i1 + 1) (cs.length - (i1 + 1)),
          i1 < j ∧ j < cs.length := by
        intro j hj
        rw [List.mem_range'_1] at hj
        omega
      obtain ⟨s', hs', hP', -⟩ := greedy_inner_fold g cs hw hinv i1
        (List.range' (i1 + 1) (cs.length - (i1 + 1))) hjs s (Or.inl hs)
      refine ⟨s', hs', ?_⟩
      rcases hP' with h | h
      · exact h
      · exact h ▸ hs)
theorem Except.pure_bind {ε α β : Type} (a : α) (f : α → Except ε β) :
    ((pure a : Except ε α) >>= f) = f a := rfl

theorem random_fold (g : WGraph) (hw : g.NonnegWeights) (cs : List (List Key))
    (hinv : ClustersInv g cs) (c1 : List Key) (hc1i : ∀ x ∈ c1, x ∈ g.items) :
    ∀ (l : List (List Key)), (∀ c ∈ l, c ∈ cs) →
    ∀ acc, (ScanStateR cs c1 acc ∨ acc = ((-1 : ℚ), none)) →
    ∃ acc', (l.foldlM (fun acc c2 =>
        if c2 ≠ c1 then
          cross_cluster_weight g c1 c2 >>= fun score =>
            pure (if acc.1 < score then (score, some c2) else acc)
        else pure acc) acc) = .ok acc' ∧
      (ScanStateR cs c1 acc' ∨ acc' = acc) ∧
      ((∃ c2 ∈ l, c2 ≠ c1) → ScanStateR cs c1 acc')
  | [], _, acc, _ => ⟨acc, rfl, Or.inr rfl, by simp⟩
  | c :: l, hl, acc, hQ => by
    by_cases hcc : c ≠ c1
    · obtain ⟨q, hq, hq0⟩ := cross_cluster_weight_ok g hw c1 c hc1i
        (fun x hx => (hinv.1 c (hl c (List.mem_cons_self _ _))).2 x hx)
      have hq1 : (-1 : ℚ) < q := lt_of_lt_of_le (by norm_num) hq0
      have hstep : ∃ acc1, (if c ≠ c1 then
          cross_cluster_weight g c1 c >>= fun score =>
            pure (if acc.1 < score then (score, some c) else acc)
        else pure acc) = .ok acc1 ∧ ScanStateR cs c1 acc1 := by
        rw [if_pos hcc, hq, Except.ok_bind]
        by_cases hlt : acc.1 < q
        · exact ⟨(q, some c), by rw [if_pos hlt]; rfl,
            ⟨c, hl c (List.mem_cons_self _ _), hcc, rfl, hq1⟩⟩
        · rcases hQ with hS | hN
          · exact ⟨acc, by rw [if_neg hlt]; rfl, hS⟩
          · exfalso
            rw [hN] at hlt
            exact hlt hq1
      obtain ⟨acc1, hacc1, hS1⟩ := hstep
      obtain ⟨acc', hacc', hP', -⟩ := random_fold g hw cs hinv c1 hc1i l
        (fun c' hc' => hl c' (List.mem_cons_of_mem _ hc')) acc1 (Or.inl hS1)
      have hSacc' : ScanStateR cs c1 acc' := by
        rcases hP' with h | h
        · exact h
        · exact h ▸ hS1
      refine ⟨acc', ?_, Or.inl hSacc', fun _ => hSacc'⟩
      rw [List.foldlM_cons, hacc1]
      exact hacc'
    · obtain ⟨acc', hacc', hP', hEx⟩ := random_fold g hw cs hinv c1 hc1i l
        (fun c' hc' => hl c' (List.mem_cons_of_mem _ hc')) acc hQ
      refine ⟨acc', ?_, hP', ?_⟩
      · rw [List.foldlM_cons, if_neg hcc, Except.pure_bind]
        exact hacc'
      · rintro ⟨c2, hc2, hc2ne⟩
        rcases List.mem_cons.mp hc2 with rfl | hc2
        · exact absurd hcc (fun h => h hc2ne)
        · exact hEx ⟨c2, hc2, hc2ne⟩

theorem exists_partner {g : WGraph} {cs : List (List Key)}
    (hinv : ClustersInv g cs) (hlen : 2 ≤ cs.length) (c1 : List Key) :
    ∃ c2 ∈ cs, c2 ≠ c1 := by
  rcases cs with _ | ⟨a, _ | ⟨b, rest⟩⟩
  · simp at hlen
  · simp at hlen
  · have hnd : (a :: b :: rest).Nodup := inv_nodup hinv
    have hab : a ≠ b := by
      rw [List.nodup_cons] at hnd
      exact fun he => hnd.1 (he ▸ List.mem_cons_self b rest)
    by_cases ha : a = c1
    · refine ⟨b, List.mem_cons_of_mem _ (List.mem_cons_self _ _), ?_⟩
      intro he
      exact hab (ha.trans he.symm)
    · exact ⟨a, List.mem_cons_self _ _, ha⟩

theorem randomStep_ok (g : WGraph) (hw : g.NonnegWeights) (pick : ℕ)
    (cs : List (List Key)) (hinv : ClustersInv g cs) (hlen : 2 ≤ cs.length) :
    ∃ cs', randomStep g pick cs = .ok cs' ∧ ClustersInv g cs' ∧
      cs'.length + 1 = cs.length := by
  have hpos : 0 < cs.length := by omega
  have hc1 : cs.getD (pick % cs.length) [] ∈ cs := mem_getD (Nat.mod_lt _ hpos)
  obtain ⟨acc, hacc, -, hEx⟩ := random_fold g hw cs hinv
    (cs.getD (pick % cs.length) []) ((hinv.1 _ hc1).2) cs (fun c hc => hc)
    ((-1 : ℚ), none) (Or.inr rfl)
  obtain ⟨c2, hc2, hc2ne⟩ := exists_partner hinv hlen (cs.getD (pick % cs.length) [])
  obtain ⟨c2', hc2', hne', hsome, -⟩ := hEx ⟨c2, hc2, hc2ne⟩
  have hscan : randomScan g cs (cs.getD (pick % cs.length) []) = .ok acc := hacc
  have hshow : randomStep g pick cs =
      (randomScan g cs (cs.getD (pick % cs.length) []) >>= fun r =>
        match r.2 with
        | some c2 => pure (mergeInto cs (cs.getD (pick % cs.length) []) c2)
        | none => .error .attributeError) := rfl
  obtain ⟨hlen', hinv'⟩ := mergeInto_facts g cs (cs.getD (pick % cs.length) []) c2'
    hinv hc1 hc2' (fun he => hne' he.symm)
  refine ⟨mergeInto cs (cs.getD (pick % cs.length) []) c2', ?_, hinv', hlen'⟩
  rw [hshow, hscan, Except.ok_bind, hsome]
  rfl

theorem greedyStep_ok (g : WGraph) (hw : g.NonnegWeights)
    (cs : List (List Key)) (hinv : ClustersInv g cs) (hlen : 2 ≤ cs.length) :
    ∃ cs', greedyStep g cs = .ok cs' ∧ ClustersInv g cs' ∧
      cs'.length + 1 = cs.length := by
  obtain ⟨acc, hacc, hS⟩ := greedyScan_some g cs hw hinv hlen
  obtain ⟨c1, hc1, c2, hc2, hne, h21, h22, -⟩ := hS
  have hshow : greedyStep g cs = (greedyScan g cs >>= fun r =>
      match r.2.1, r.2.2 with
      | some c1, some c2 => pure (mergeInto cs c1 c2)
      | _, _ => .error .attributeError) := rfl
  obtain ⟨hlen', hinv'⟩ := mergeInto_facts g cs c1 c2 hinv hc1 hc2 hne
  refine ⟨mergeInto cs c1 c2, ?_, hinv', hlen'⟩
  rw [hshow, hacc, Except.ok_bind, h21, h22]
  rfl

theorem clustersInit_inv (g : WGraph) (hWF : g.WF) :
    ClustersInv g (clustersInit g) := by
  have hga : g.get_all_vertices "" = g.items := by
    unfold WGraph.get_all_vertices
    simp
  constructor
  · intro c hc
    unfold clustersInit at hc
    rw [hga, List.mem_map] at hc
    obtain ⟨b, hb, rfl⟩ := hc
    refine ⟨by simp, ?_⟩
    intro x hx
    rw [List.mem_singleton] at hx
    exact hx ▸ hb
  · unfold clustersInit
    rw [hga, List.pairwise_map]
    refine List.Pairwise.imp ?_ hWF.1
    intro a b hab x hxa hxb
    rw [List.mem_singleton] at hxa hxb
    exact hab (hxa ▸ hxb ▸ rfl)

theorem greedyIter_facts (g : WGraph) (hWF : g.WF) (hw : g.NonnegWeights)
    (k : ℤ) (hk : 1 ≤ k) :
    ∀ t : ℕ, (t : ℤ) ≤ ((clustersInit g).length : ℤ) - k →
      ∃ cs, greedyIter g t = .ok cs ∧ ClustersInv g cs ∧
        ((cs.length : ℤ) = ((clustersInit g).length : ℤ) - t)
  | 0, _ => ⟨clustersInit g, rfl, clustersInit_inv g hWF, by simp⟩
  | t + 1, ht => by
    have ht' : (t : ℤ) ≤ ((clustersInit g).length : ℤ) - k := by
      push_cast at ht ⊢
      omega
    obtain ⟨cs, hcs, hinv, hlenEq⟩ := greedyIter_facts g hWF hw k hk t ht'
    have hlen2 : 2 ≤ cs.length := by
      have h2 : (2 : ℤ) ≤ (cs.length : ℤ) := by
        push_cast at ht hlenEq ⊢
        omega
      exact_mod_cast h2
    obtain ⟨cs', hstep, hinv', hlen'⟩ := greedyStep_ok g hw cs hinv hlen2
    refine ⟨cs', ?_, hinv', ?_⟩
    · unfold greedyIter
      rw [List.range_succ, List.foldlM_append]
      have hiter : (List.range t).foldlM (fun cs _ => greedyStep g cs)
          (clustersInit g) = greedyIter g t := rfl
      rw [hiter, hcs, Except.ok_bind, List.foldlM_cons, hstep, Except.ok_bind,
        List.foldlM_nil]
      rfl
    · push_cast at hlenEq ⊢
      omega

theorem randomIter_facts (g : WGraph) (hWF : g.WF) (hw : g.NonnegWeights)
    (pick : ℕ → ℕ) (k : ℤ) (hk : 1 ≤ k) :
    ∀ t : ℕ, (t : ℤ) ≤ ((clustersInit g).length : ℤ) - k →
      ∃ cs, randomIter g pick t = .ok cs ∧ ClustersInv g cs ∧
        ((cs.length : ℤ) = ((clustersInit g).length : ℤ) - t)
  | 0, _ => ⟨clustersInit g, rfl, clustersInit_inv g hWF, by simp⟩
  | t + 1, ht => by
    have ht' : (t : ℤ) ≤ ((clustersInit g).length : ℤ) - k := by
      push_cast at ht ⊢
      omega
    obtain ⟨cs, hcs, hinv, hlenEq⟩ := randomIter_facts g hWF hw pick k hk t ht'
    have hlen2 : 2 ≤ cs.length := by
      have h2 : (2 : ℤ) ≤ (cs.length : ℤ) := by
        push_cast at ht hlenEq ⊢
        omega
      exact_mod_cast h2
    obtain ⟨cs', hstep, hinv', hlen'⟩ := randomStep_ok g hw (pick t) cs hinv hlen2
    refine ⟨cs', ?_, hinv', ?_⟩
    · unfold randomIter
      rw [List.range_succ, List.foldlM_append]
      have hiter : (List.range t).foldlM (fun cs t' => randomStep g (pick t') cs)
          (clustersInit g) = randomIter g pick t := rfl
      rw [hiter, hcs, Except.ok_bind, List.foldlM_cons, hstep, Except.ok_bind,
        List.foldlM_nil]
      rfl
    · push_cast at hlenEq ⊢
      omega

/-! ## Claim C8 -/

/-- C8: on a book-only weighted graph with nonnegative stored weights (the
data model's review scores and similarity weights) and `1 ≤ num_clusters`,
both clustering strategies start from the singleton partition and perform
exactly `max(n − num_clusters, 0)` merges, each merge reducing the cluster
count by exactly one (after `t` merges exactly `n − t` clusters remain); when
`num_clusters ≥ n`, zero merges occur and the unchanged singleton partition
is returned. -/
theorem c8_cluster_merge_counts (g : WGraph) (num_clusters : ℤ) (pick : ℕ → ℕ)
    (hWF : g.WF) (_hbook : ∀ v ∈ g.verts, v.kind = "book")
    (hw : g.NonnegWeights) (hk : 1 ≤ num_clusters) :
    (∀ t : ℕ, (t : ℤ) ≤ ((clustersInit g).length : ℤ) - num_clusters →
      ∃ cs, greedyIter g t = .ok cs ∧
        ((cs.length : ℤ) = ((clustersInit g).length : ℤ) - t)) ∧
    (∀ t : ℕ, (t : ℤ) ≤ ((clustersInit g).length : ℤ) - num_clusters →
      ∃ cs, randomIter g pick t = .ok cs ∧
        ((cs.length : ℤ) = ((clustersInit g).length : ℤ) - t)) ∧
    find_clusters_greedy g num_clusters =
      greedyIter g (((clustersInit g).length : ℤ) - num_clusters).toNat ∧
    find_clusters_random g pick num_clusters =
      randomIter g pick (((clustersInit g).length : ℤ) - num_clusters).toNat ∧
    (((clustersInit g).length : ℤ) ≤ num_clusters →
      find_clusters_greedy g num_clusters = .ok (clustersInit g) ∧
      find_clusters_random g pick num_clusters = .ok (clustersInit g)) := by
  refine ⟨?_, ?_, rfl, rfl, ?_⟩
  · intro t ht
    obtain ⟨cs, hcs, -, hlen⟩ := greedyIter_facts g hWF hw num_clusters hk t ht
    exact ⟨cs, hcs, hlen⟩
  · intro t ht
    obtain ⟨cs, hcs, -, hlen⟩ := randomIter_facts g hWF hw pick num_clusters hk t ht
    exact ⟨cs, hcs, hlen⟩
  · intro hnk
    have h0 : (((clustersInit g).length : ℤ) - num_clusters).toNat = 0 :=
      Int.toNat_of_nonpos (by omega)
    constructor
    · show find_clusters_greedy g num_clusters = _
      have : find_clusters_greedy g num_clusters =
          greedyIter g (((clustersInit g).length : ℤ) - num_clusters).toNat := rfl
      rw [this, h0]
      rfl
    · have : find_clusters_random g pick num_clusters =
          randomIter g pick (((clustersInit g).length : ℤ) - num_clusters).toNat := rfl
      rw [this, h0]
      rfl

/-- Witness for C8 on the concrete book-only graph `gBooks` (three books,
`num_clusters = 2`). -/
theorem c8_witness :
    (∀ t : ℕ, (t : ℤ) ≤ ((clustersInit gBooks).length : ℤ) - 2 →
      ∃ cs, greedyIter gBooks t = .ok cs ∧
        ((cs.length : ℤ) = ((clustersInit gBooks).length : ℤ) - t)) ∧
    (∀ t : ℕ, (t : ℤ) ≤ ((clustersInit gBooks).length : ℤ) - 2 →
      ∃ cs, randomIter gBooks (fun _ => 0) t = .ok cs ∧
        ((cs.length : ℤ) = ((clustersInit gBooks).length : ℤ) - t)) ∧
    find_clusters_greedy gBooks 2 =
      greedyIter gBooks (((clustersInit gBooks).length : ℤ) - 2).toNat ∧
    find_clusters_random gBooks (fun _ => 0) 2 =
      randomIter gBooks (fun _ => 0) (((clustersInit gBooks).length : ℤ) - 2).toNat ∧
    (((clustersInit gBooks).length : ℤ) ≤ 2 →
      find_clusters_greedy gBooks 2 = .ok (clustersInit gBooks) ∧
      find_clusters_random gBooks (fun _ => 0) 2 = .ok (clustersInit gBooks)) :=
  c8_cluster_merge_counts gBooks 2 (fun _ => 0) (by decide) (by decide)
    (by decide) (by decide)
